import Mathlib

/-!
Verification of the qParser expression parser.

Shallow embedding of the two source modules:
* qParser.py — Token classification, the consume* lexer helpers, tokenize,
  expandMult, and the string utilities split / pop.
* binary.py — the Binary stack builder, the minus normalization passes
  (explicitZeros / minusAsOpp), the precedence folder (nest / splitOp /
  getPriorityRange) and the evaluator base case.

Strings are embedded as List Char.  Token type tags are embedded as the
String tags the source compares with (this matters: one source match uses
the tag "CONST" although constant tokens carry the tag "CONSTANT").
Loops that the source does not bound are embedded with explicit fuel;
runs that can neither finish nor fail within any fuel are divergent runs
of the source.

The modules symbols.py and macroleaf.py are imported by binary.py but are
not part of the two source files; the few facts needed about them
(the priority attribute of an infix token, and the shape of a Macroleaf
built from a list of stack nodes) are modelled from the spec and marked
as such below.
-/

namespace QP

/-- Utility pop from qParser.py: first character (as a one-character
string) and the tail; both components empty on the empty string. -/
def pop (l : List Char) : List Char × List Char :=
  if l = [] then ([], [])
  else if l.length = 1 then (l, [])
  else (l.take 1, l.drop 1)

/-- Utility split from qParser.py: cut at breakpoint index n; the index is
an arbitrary integer exactly as in the source. -/
def split (l : List Char) (n : Int) : List Char × List Char :=
  if l = [] then ([], [])
  else if n > (l.length : Int) then (l, [])
  else if n ≤ 0 then ([], l)
  else (l.take n.toNat, l.drop n.toNat)

/-- isAlpha from qParser.py, on the single character the source reads. -/
def isAlphaC (c : Char) : Bool :=
  (( 'A' ≤ c) && (c ≤ 'Z')) || (( 'a' ≤ c) && (c ≤ 'z'))

/-- isDigit from qParser.py, on the single character the source reads. -/
def isDigitC (c : Char) : Bool :=
  ( '0' ≤ c) && (c ≤ '9')

/-- Scanning loop of isNumber: the flag records that a dot has been seen
(the source names it gotDigit). -/
def isNumberGo (gotDigit : Bool) : List Char → Bool
  | [] => true
  | c :: rest =>
    if c = '.' then (if gotDigit then false else isNumberGo true rest)
    else if isDigitC c then isNumberGo gotDigit rest
    else false

/-- isNumber from qParser.py: digits with at most one dot; empty string and
a lone dot rejected; no sign accepted. -/
def isNumber (l : List Char) : Bool :=
  if l = [] ∨ l = [ '.'] then false else isNumberGo false l

/-- Token.CONSTANTS names. -/
def constNames : List (List Char) :=
  [ "pi".data, "i".data, "eps".data, "inf".data]

/-- Token.FUNCTIONS names. -/
def funcNames : List (List Char) :=
  [ "id".data, "sin".data, "cos".data, "tan".data, "exp".data, "ln".data,
    "log10".data, "logN".data, "abs".data, "sqrt".data, "floor".data,
    "ceil".data, "round".data, "Q".data, "sinc".data]

/-- Token.INFIX_OPS names. -/
def infixNames : List (List Char) :=
  [ "+".data, "-".data, "*".data, "/".data, "//".data, "^".data]

/-- Priority of an infix operator name, from the Token.INFIX_OPS table.
Modelled from the spec: binary.py reads a priority attribute of
symbols.Token (a module outside the two source files); the spec fixes the
infix registry as the table {symbol, priority} of qParser.py. -/
def opPriority (name : List Char) : Int :=
  if name = "+".data then 1
  else if name = "-".data then 1
  else if name = "*".data then 2
  else if name = "/".data then 2
  else if name = "//".data then 2
  else if name = "^".data then 3
  else 0

/-- checkVariableSyntax from qParser.py. -/
def checkVariableSyntax (l : List Char) : Bool :=
  if (constNames ++ funcNames).contains l then false
  else if ¬ (isAlphaC (l.getD 0 ' ') || l.getD 0 ' ' = '_') then false
  else l.all (fun c => isAlphaC c || isDigitC c || c = '_')

/-- isBlank from qParser.py prints TODO and returns None; None is falsy at
the single call site, so the predicate is constantly false. -/
def isBlankB (_ : List Char) : Bool := false

/-- A classified token: the source stores a type tag string and the name. -/
structure Token where
  type : String
  name : List Char
  deriving DecidableEq, Repr

/-- Token.__init__ from qParser.py: classification by name.  The final
branch of the source only prints an error and leaves the attributes
unset; it is embedded as an ERROR tag with an empty name. -/
def mkToken (name : List Char) : Token :=
  if constNames.contains name then ⟨ "CONSTANT", name⟩
  else if funcNames.contains name then ⟨ "FUNCTION", name⟩
  else if infixNames.contains name then ⟨ "INFIX", name⟩
  else if checkVariableSyntax name then ⟨ "VAR", name⟩
  else if name = "(".data then ⟨ "BRKT_OPEN", name⟩
  else if name = ")".data then ⟨ "BRKT_CLOSE", name⟩
  else if name = ",".data then ⟨ "COMMA", name⟩
  else if isNumber name then ⟨ "NUMBER", name⟩
  else if isBlankB name then ⟨ "SPACE", name⟩
  else ⟨ "ERROR", []⟩

/-- The pattern match of QParser.expandMult, on the two type tag strings of
an adjacent token pair.  The arms comparing against "CONST" are literal
from the source; constant tokens carry the tag "CONSTANT", never "CONST",
so those two arms cannot fire. -/
def insertStar : String → String → Bool
  | "CONSTANT", "BRKT_OPEN" => true
  | "VAR", "BRKT_OPEN" => true
  | "VAR", "NUMBER" => true
  | "BRKT_CLOSE", "CONST" => true
  | "BRKT_CLOSE", "FUNCTION" => true
  | "BRKT_CLOSE", "VAR" => true
  | "BRKT_CLOSE", "BRKT_OPEN" => true
  | "BRKT_CLOSE", "NUMBER" => true
  | "NUMBER", "CONST" => true
  | "NUMBER", "FUNCTION" => true
  | "NUMBER", "VAR" => true
  | "NUMBER", "BRKT_OPEN" => true
  | _, _ => false

/-- Pair walk of QParser.expandMult: each token is emitted, with a "*"
token inserted after it when the pair matches; the final token is
emitted once at the end. -/
def expandMultGo : List Token → List Token
  | [] => []
  | [t] => [t]
  | a :: b :: rest =>
    (if insertStar a.type b.type then [a, mkToken ( "*".data)] else [a])
      ++ expandMultGo (b :: rest)

/-- QParser.expandMult: lists of at most one token are returned unchanged. -/
def expandMult (ts : List Token) : List Token :=
  if ts.length ≤ 1 then ts else expandMultGo ts

/-- Index loop of QParser.consumeSpace over n in range(len): returns the
split at the first non-space position; the extra counter k keeps the
remaining number of iterations (the loop is bounded by the source, and
the counter keeps the recursion structural).  When every character is a
space the source falls off the end of the function and returns None. -/
def consumeSpaceGo (s : List Char) (n : Nat) : Nat → Option (List Char × List Char)
  | 0 => none
  | k + 1 =>
    if s.getD n ' ' ≠ ' ' then some (split s (n : Int))
    else consumeSpaceGo s (n + 1) k

/-- QParser.consumeSpace. -/
def consumeSpace (s : List Char) : Option (List Char × List Char) :=
  consumeSpaceGo s 0 s.length

/-- Scan loop of QParser.consumeNumber over n in range(1, len+1): extend
while the prefix keeps passing isNumber, breaking at the first failure. -/
def consumeNumberGo (s : List Char) (n nMax : Nat) : Nat → Nat
  | 0 => nMax
  | k + 1 =>
    if isNumber (s.take n) then consumeNumberGo s (n + 1) n k else nMax

/-- QParser.consumeNumber. -/
def consumeNumber (s : List Char) : List Char × List Char :=
  if ¬ (isDigitC (s.getD 0 ' ') || s.getD 0 ' ' = '.') then ([], s)
  else split s ((consumeNumberGo s 1 0 s.length : Nat) : Int)

/-- Scan loop of QParser.consumeConst over n in range(1, len+1): a
matching constant prefix is accepted when the whole string matched or
when the next character is neither an underscore (which rejects for
good) nor a letter (which defers to a longer constant match); when the
loop runs out the constant never matched. -/
def consumeConstGo (s : List Char) (n : Nat) : Nat → List Char × List Char
  | 0 => ([], s)
  | k + 1 =>
    if constNames.contains (s.take n) then
      (if n = s.length then (s.take n, [])
       else
        (if s.getD n ' ' = '_' then ([], s)
         else if isAlphaC (s.getD n ' ') then consumeConstGo s (n + 1) k
         else (s.take n, s.drop n)))
    else consumeConstGo s (n + 1) k

/-- QParser.consumeConst. -/
def consumeConst (s : List Char) : List Char × List Char :=
  consumeConstGo s 1 s.length

/-- The function names each extended with the opening parenthesis, as in
QParser.consumeFunc. -/
def functionsExt : List (List Char) :=
  funcNames.map (fun f => f ++ "(".data)

/-- Scan loop of QParser.consumeFunc over n in range(1, len+1): the whole
string is scanned and the longest prefix belonging to functionsExt is
retained. -/
def consumeFuncMax (s : List Char) (n nMax : Nat) : Nat → Nat
  | 0 => nMax
  | k + 1 =>
    if functionsExt.contains (s.take n) then consumeFuncMax s (n + 1) n k
    else consumeFuncMax s (n + 1) nMax k

/-- QParser.consumeFunc: the matched name is returned without its trailing
opening parenthesis. -/
def consumeFunc (s : List Char) : List Char × List Char :=
  ((s.take (consumeFuncMax s 1 0 s.length)).dropLast,
   s.drop (consumeFuncMax s 1 0 s.length))

/-- Scan loop of QParser.consumeInfix over n in range(1, len+1): longest
prefix in the operator table. -/
def consumeInfixOpMax (s : List Char) (n nMax : Nat) : Nat → Nat
  | 0 => nMax
  | k + 1 =>
    if infixNames.contains (s.take n) then consumeInfixOpMax s (n + 1) n k
    else consumeInfixOpMax s (n + 1) nMax k

/-- QParser.consumeInfix (renamed consumeInfixOp here). -/
def consumeInfixOp (s : List Char) : List Char × List Char :=
  split s ((consumeInfixOpMax s 1 0 s.length : Nat) : Int)

/-- Scan loop of QParser.consumeVar over n in range(1, len+1): extend
through letters, underscores and digits; a digit run containing a dot
stops the variable before the run (rule R5.5), anything else stops it at
the current position; reaching n = len takes the whole string.  (The
counter exhausts one step after the n = len case fires, so its base arm
is unreachable.) -/
def consumeVarGo (s : List Char) (n : Nat) : Nat → List Char × List Char
  | 0 => (s, [])
  | k + 1 =>
    if s.length ≤ n then (s, [])
    else
      (if isAlphaC (s.getD n ' ') || s.getD n ' ' = '_' then consumeVarGo s (n + 1) k
       else if isDigitC (s.getD n ' ') then
         (if (consumeNumber (s.drop n)).1.contains '.' then (s.take n, s.drop n)
          else consumeVarGo s (n + 1) k)
       else (s.take n, s.drop n))

/-- QParser.consumeVar: candidates whose name is a reserved constant or
function name are rejected.  (The internal-error branch of the source,
reachable only through its impossible sentinel value, is dropped.) -/
def consumeVar (s : List Char) : List Char × List Char :=
  if ¬ (isAlphaC (s.getD 0 ' ') || s.getD 0 ' ' = '_') then ([], s)
  else
    (if ¬ ((constNames ++ funcNames).contains (consumeVarGo s 1 s.length).1) then
      consumeVarGo s 1 s.length
     else ([], s))

/-- Result of a tokenize run: a token list, a crash (the source raises,
e.g. unpacking the None returned by consumeSpace on an all-space string),
or fuel exhaustion (the run is still going; a run that exhausts every
fuel is a divergent run of the source). -/
inductive TRes where
  | ok (toks : List Token)
  | err
  | outOfFuel
  deriving DecidableEq, Repr

/-- Prepend freshly produced tokens to the outcome of the rest of a run. -/
def consTR (ts : List Token) : TRes → TRes
  | .ok l => .ok (ts ++ l)
  | r => r

/-- QParser.tokenize, with fuel bounding the number of while-loop
iterations.  Branch order and the consumed remainders are literal from
the source; note the final branch: a head character that no rule matches
is not consumed, and the loop retries the same input forever. -/
def tokenizeFuel : Nat → List Char → TRes
  | 0, _ => .outOfFuel
  | fuel + 1, s =>
    if s.length = 0 then .ok []
    else
      match consumeSpace s with
      | none => .err
      | some (_, s1) =>
        if s1.length = 0 then .ok []
        else
          let pN := consumeNumber s1
          let pC := consumeConst s1
          let pF := consumeFunc s1
          let pV := consumeVar s1
          let pI := consumeInfixOp s1
          if pN.1 ≠ [] then consTR [mkToken pN.1] (tokenizeFuel fuel pN.2)
          else if pC.1 ≠ [] then consTR [mkToken pC.1] (tokenizeFuel fuel pC.2)
          else if pF.1 ≠ [] then
            consTR [mkToken pF.1, mkToken ( "(".data)] (tokenizeFuel fuel pF.2)
          else if pV.1 ≠ [] then consTR [mkToken pV.1] (tokenizeFuel fuel pV.2)
          else if pI.1 ≠ [] then consTR [mkToken pI.1] (tokenizeFuel fuel pI.2)
          else
            let pP := pop s1
            if pP.1 = "(".data then consTR [mkToken pP.1] (tokenizeFuel fuel pP.2)
            else if pP.1 = ")".data then consTR [mkToken pP.1] (tokenizeFuel fuel pP.2)
            else if pP.1 = ",".data then consTR [mkToken pP.1] (tokenizeFuel fuel pP.2)
            else tokenizeFuel fuel s1

/-- A node of a Binary stack: a Token, or a Macroleaf holding a function
name and its argument stacks.  Modelled from the spec for the Macroleaf
part (macroleaf.py is not among the source files): a MacroNode is a
function name with an ordered sequence of argument sub-trees, each a
Binary stack. -/
inductive Node where
  | tk (t : Token)
  | mk (fn : List Char) (args : List (List Node))

/-- The type tag read by binary.py: Macroleaf objects answer MACRO. -/
def Node.type : Node → String
  | .tk t => t.type
  | .mk _ _ => "MACRO"

/-- The name attribute read by binary.py. -/
def Node.name : Node → List Char
  | .tk t => t.name
  | .mk fn _ => fn

/-- The priority attribute read by binary.py on INFIX nodes.  Modelled
from the spec: symbols.Token (not among the source files) carries the
priority of the Token.INFIX_OPS registry; the attribute is never read on
a Macroleaf. -/
def Node.priority : Node → Int
  | .tk t => opPriority t.name
  | .mk _ _ => 0

/-- A placeholder node for out-of-range list reads; its type tag matches
no branch. -/
def defaultNode : Node := Node.tk ⟨ "", []⟩

/-- How a Binary._buildStack run came to a stop.  The source records only
the remainder; the stop kind is the extra information the enclosing
Macroleaf construction (modelled from the spec) needs in order to keep
collecting comma-separated arguments. -/
inductive BuildStop where
  | comma
  | closeBracket
  | exhausted
  deriving DecidableEq, Repr

/-- The token types Binary._buildStack pushes directly onto the stack. -/
def pushTypes : List String :=
  [ "CONSTANT", "VAR", "NUMBER", "INFIX", "MACRO"]

/-- The token types accepted by the one-token terminal case of
Binary._buildStack. -/
def leafTypes : List String :=
  [ "CONSTANT", "VAR", "NUMBER", "MACRO"]

mutual

/-- Binary._buildStack: builds the stack and the remainder from a token
list.  Error prints of the source (trailing comma, trailing infix,
unexpected token) are embedded as failures. -/
def buildStackFuel : Nat → List Token → Option (List Node × List Token × BuildStop)
  | 0, _ => none
  | _ + 1, [] => some ([], [], .exhausted)
  | _ + 1, [t] =>
    if leafTypes.contains t.type then some ([Node.tk t], [], .exhausted)
    else if t.type = "BRKT_CLOSE" then some ([], [], .closeBracket)
    else none
  | fuel + 1, t :: tail =>
    if pushTypes.contains t.type then
      (buildStackFuel fuel tail).map (fun r => (Node.tk t :: r.1, r.2.1, r.2.2))
    else if t.type = "FUNCTION" then
      match macroFromTokens fuel t.name tail.tail with
      | none => none
      | some (m, mrem) =>
        (buildStackFuel fuel mrem).map (fun r => (m :: r.1, r.2.1, r.2.2))
    else if t.type = "BRKT_OPEN" then
      match macroFromTokens fuel ( "id".data) tail with
      | none => none
      | some (m, mrem) =>
        (buildStackFuel fuel mrem).map (fun r => (m :: r.1, r.2.1, r.2.2))
    else if t.type = "COMMA" then some ([], tail, .comma)
    else if t.type = "BRKT_CLOSE" then some ([], tail, .closeBracket)
    else none

/-- Macroleaf construction from a token list.  Modelled from the spec:
the arguments are produced by repeated sub-builds separated by commas and
terminated by the matching close bracket (or the end of the input). -/
def macroFromTokens : Nat → List Char → List Token → Option (Node × List Token)
  | 0, _, _ => none
  | fuel + 1, fn, tokens =>
    match macroArgsGo fuel tokens with
    | none => none
    | some (args, rem) => some (Node.mk fn args, rem)

/-- Argument collection loop of the modelled Macroleaf construction. -/
def macroArgsGo : Nat → List Token → Option (List (List Node) × List Token)
  | 0, _ => none
  | fuel + 1, tokens =>
    match buildStackFuel fuel tokens with
    | none => none
    | some (st, rem, .comma) =>
      match macroArgsGo fuel rem with
      | none => none
      | some (args, rem2) => some (st :: args, rem2)
    | some (st, rem, _) => some ([st], rem)

end

/-- The implicit zero prepended by Binary._explicitZeros: symbols.Token("0"),
a NUMBER token. -/
def zeroToken : Token := mkToken ( "0".data)

mutual

/-- Binary._explicitZeros: prepend a zero leaf when the stack has at least
two nodes and starts with the infix minus, then recurse into the
macroleaves of the (possibly extended) stack. -/
def explicitZerosStack : Nat → List Node → Option (List Node)
  | 0, _ => none
  | fuel + 1, stack =>
    match stack with
    | x :: _ :: _ =>
      if x.type = "INFIX" ∧ x.name = "-".data then
        explicitZerosElems fuel (Node.tk zeroToken :: stack)
      else explicitZerosElems fuel stack
    | _ => explicitZerosElems fuel stack

/-- Recursion of _explicitZeros over the stack elements: only MACRO
elements are entered. -/
def explicitZerosElems : Nat → List Node → Option (List Node)
  | 0, _ => none
  | _ + 1, [] => some []
  | fuel + 1, x :: rest =>
    match explicitZerosNode fuel x, explicitZerosElems fuel rest with
    | some x2, some rest2 => some (x2 :: rest2)
    | _, _ => none

/-- The pass applied to one node: tokens are untouched; a Macroleaf has
the pass applied to each of its argument stacks (Macroleaf recursion
modelled from the spec: every MacroNode argument is processed). -/
def explicitZerosNode : Nat → Node → Option Node
  | 0, _ => none
  | _ + 1, .tk t => some (.tk t)
  | fuel + 1, .mk fn args =>
    match explicitZerosArgs fuel args with
    | some args2 => some (.mk fn args2)
    | none => none

/-- The pass applied to each argument stack of a Macroleaf. -/
def explicitZerosArgs : Nat → List (List Node) → Option (List (List Node))
  | 0, _ => none
  | _ + 1, [] => some []
  | fuel + 1, s :: rest =>
    match explicitZerosStack fuel s, explicitZerosArgs fuel rest with
    | some s2, some rest2 => some (s2 :: rest2)
    | _, _ => none

end

/-- The while loop of Binary._minusAsOpp over a stack of at least four
nodes.  The source walks an index n over the unchanged input stack and
assembles newStack.  When two consecutive INFIX nodes are found that are
not the pair (power, minus), the body of the outer if runs nothing — the
elif arm repeating the same condition is unreachable — and n is not
advanced, so the source loops forever on the same state.  When the pair
(power, minus) sits at the end of the stack, the source prints its guard
message and then reads stack[n+2], which raises IndexError (embedded as
failure). -/
def minusAsOppLoop : Nat → List Node → Nat → List Node → Option (List Node)
  | 0, _, _, _ => none
  | fuel + 1, stack, n, acc =>
    if n + 2 ≤ stack.length then
      let eltA := stack.getD n defaultNode
      let eltB := stack.getD (n + 1) defaultNode
      if eltA.type = "INFIX" ∧ eltB.type = "INFIX" then
        if eltA.name = "^".data ∧ eltB.name = "-".data then
          if stack.length ≤ n + 2 then none
          else
            minusAsOppLoop fuel stack (n + 3)
              (acc ++ [eltA, Node.mk ( "opp".data) [[stack.getD (n + 2) defaultNode]]])
        else minusAsOppLoop fuel stack n acc
      else if n + 2 = stack.length then
        minusAsOppLoop fuel stack (n + 1) (acc ++ [eltA, eltB])
      else minusAsOppLoop fuel stack (n + 1) (acc ++ [eltA])
    else some acc

mutual

/-- Binary._minusAsOpp: stacks of at least four nodes get the window scan
(with no recursion into their macroleaves); shorter stacks are left
unchanged but their macroleaves are recursed into. -/
def minusAsOppStack : Nat → List Node → Option (List Node)
  | 0, _ => none
  | fuel + 1, stack =>
    if 4 ≤ stack.length then minusAsOppLoop fuel stack 0 []
    else minusAsOppElems fuel stack

/-- Recursion of _minusAsOpp over the elements of a short stack. -/
def minusAsOppElems : Nat → List Node → Option (List Node)
  | 0, _ => none
  | _ + 1, [] => some []
  | fuel + 1, x :: rest =>
    match minusAsOppNode fuel x, minusAsOppElems fuel rest with
    | some x2, some rest2 => some (x2 :: rest2)
    | _, _ => none

/-- The pass applied to one node (Macroleaf recursion modelled from the
spec, as for explicitZeros). -/
def minusAsOppNode : Nat → Node → Option Node
  | 0, _ => none
  | _ + 1, .tk t => some (.tk t)
  | fuel + 1, .mk fn args =>
    match minusAsOppArgs fuel args with
    | some args2 => some (.mk fn args2)
    | none => none

/-- The pass applied to each argument stack of a Macroleaf. -/
def minusAsOppArgs : Nat → List (List Node) → Option (List (List Node))
  | 0, _ => none
  | _ + 1, [] => some []
  | fuel + 1, s :: rest =>
    match minusAsOppStack fuel s, minusAsOppArgs fuel rest with
    | some s2, some rest2 => some (s2 :: rest2)
    | _, _ => none

end

/-- Binary._balanceMinus: the explicit-zero pass followed by the
opposite-wrapping pass. -/
def balanceMinusStack (fuel : Nat) (s : List Node) : Option (List Node) :=
  match explicitZerosStack fuel s with
  | some s2 => minusAsOppStack fuel s2
  | none => none

/-- Binary._getPriorityRange: fold over the stack starting from the
sentinel pair (100, -1), updated on INFIX nodes only. -/
def getPriorityRange (l : List Node) : Int × Int :=
  l.foldl
    (fun mm e =>
      if e.type = "INFIX" then
        ((if e.priority < mm.1 then e.priority else mm.1),
         (if mm.2 < e.priority then e.priority else mm.2))
      else mm)
    ((100 : Int), (-1 : Int))

/-- Whether the node at index j is an INFIX of priority p (out-of-range
reads yield the placeholder node, which is no INFIX). -/
def isMaxAt (l : List Node) (p : Int) (j : Nat) : Bool :=
  decide ((l.getD j defaultNode).type = "INFIX" ∧ (l.getD j defaultNode).priority = p)

/-- The side-array entry of Binary._splitOp STEP 1: position k is marked
when an INFIX of priority p sits at k, right before it, or right after
it.  The last disjunct reproduces the Python index wraparound: the
assignment isTopElement[n-1] for an operator at n = 0 writes to the last
cell of the array. -/
def isTopF (l : List Node) (p : Int) (k : Nat) : Bool :=
  isMaxAt l p k
    || (decide (1 ≤ k) && isMaxAt l p (k - 1))
    || isMaxAt l p (k + 1)
    || (decide (k + 1 = l.length) && isMaxAt l p 0)

/-- The STEP 1 marking of Binary._splitOp.  When an operator of priority p
sits on the last cell, the assignment isTopElement[n+1] is out of range
and the source raises IndexError (embedded as failure). -/
def splitOpMarks (l : List Node) (p : Int) : Option (List (Node × Bool)) :=
  if !l.isEmpty && isMaxAt l p (l.length - 1) then none
  else some (l.enum.map (fun e => (e.2, isTopF l p e.1)))

/-- The STEP 2 chunking loop of Binary._splitOp, walking the element/flag
pairs while accumulating tmp, started by splitChunks with the first
element: a chunk is flushed whenever the flag changes, and the last
element flushes the pending chunk. -/
def splitGo (tmp : List Node) (prevFlag : Bool) : List (Node × Bool) → List (List Node × Bool)
  | [] => []
  | [(x, f)] =>
    if prevFlag ≠ f then [(tmp, prevFlag), ([x], f)] else [(tmp ++ [x], f)]
  | (x, f) :: y :: rest =>
    if prevFlag ≠ f then (tmp, prevFlag) :: splitGo [x] f (y :: rest)
    else splitGo (tmp ++ [x]) f (y :: rest)

/-- Entry of the STEP 2 loop: the first pair seeds tmp; on a single-pair
input the source loop body never flushes tmp and no chunk is emitted. -/
def splitChunks : List (Node × Bool) → List (List Node × Bool)
  | [] => []
  | [_] => []
  | x :: y :: rest => splitGo [x.1] x.2 (y :: rest)

/-- Binary._splitOp: the source returns the chunks and their flags as two
parallel lists; they are kept paired here. -/
def splitOp (l : List Node) (p : Int) : Option (List (List Node × Bool)) :=
  match splitOpMarks l p with
  | none => none
  | some pairs => some (splitChunks pairs)

/-- STEP 3 of Binary.nest: chunks flagged as top-priority are wrapped in a
Macroleaf with function id (modelled from the spec as a MacroNode holding
the chunk as its single argument stack), other chunks are spliced back
verbatim. -/
def spliceChunks : List (List Node × Bool) → List Node
  | [] => []
  | (c, true) :: rest => Node.mk ( "id".data) [c] :: spliceChunks rest
  | (c, false) :: rest => c ++ spliceChunks rest

/-- The while loop of Binary.nest, with fuel bounding the number of
iterations: while the two priorities differ, split at the maximal
priority and splice; the stack is only replaced when more than one chunk
came back. -/
def nestLoop : Nat → List Node → Option (List Node)
  | 0, _ => none
  | fuel + 1, s =>
    if (getPriorityRange s).2 = (getPriorityRange s).1 then some s
    else
      match splitOp s (getPriorityRange s).2 with
      | none => none
      | some chunks =>
        nestLoop fuel (if 1 < chunks.length then spliceChunks chunks else s)

/-- The node types allowed at even positions by CHECK 2 of Binary.nest. -/
def operandTypes : List String :=
  [ "NUMBER", "VAR", "CONSTANT", "MACRO"]

/-- CHECK 2 of Binary.nest: even positions must hold operands, odd
positions INFIX nodes; a violation makes the source call exit().
(CHECK 1, the odd-length test, only prints and does not stop the run, so
it is not embedded.) -/
def altCheckGo (even : Bool) : List Node → Bool
  | [] => true
  | x :: rest =>
    (if even then operandTypes.contains x.type else decide (x.type = "INFIX"))
      && altCheckGo (!even) rest

/-- The full CHECK 2 pass over a stack. -/
def altCheckB (l : List Node) : Bool :=
  altCheckGo true l

/-- The infix count computed during CHECK 2 of Binary.nest. -/
def numInfix (l : List Node) : Nat :=
  (l.filter (fun e => e.type = "INFIX")).length

mutual

/-- Binary.nest on a stack: run CHECK 2 (exit on violation), recurse into
the macroleaves, then run the folding loop when at least two infix
operators are present. -/
def nestStackFull : Nat → List Node → Option (List Node)
  | 0, _ => none
  | fuel + 1, s =>
    if ¬ altCheckB s then none
    else
      match nestElems fuel s with
      | none => none
      | some s2 => if 2 ≤ numInfix s then nestLoop fuel s2 else some s2

/-- Recursion of nest over the stack elements: MACRO elements are entered. -/
def nestElems : Nat → List Node → Option (List Node)
  | 0, _ => none
  | _ + 1, [] => some []
  | fuel + 1, x :: rest =>
    match nestNode fuel x, nestElems fuel rest with
    | some x2, some rest2 => some (x2 :: rest2)
    | _, _ => none

/-- nest applied to one node (Macroleaf recursion modelled from the spec:
each argument Binary is nested). -/
def nestNode : Nat → Node → Option Node
  | 0, _ => none
  | _ + 1, .tk t => some (.tk t)
  | fuel + 1, .mk fn args =>
    match nestArgs fuel args with
    | some args2 => some (.mk fn args2)
    | none => none

/-- nest applied to each argument stack of a Macroleaf. -/
def nestArgs : Nat → List (List Node) → Option (List (List Node))
  | 0, _ => none
  | _ + 1, [] => some []
  | fuel + 1, s :: rest =>
    match nestStackFull fuel s, nestArgs fuel rest with
    | some s2, some rest2 => some (s2 :: rest2)
    | _, _ => none

end

/-- Outcome of a Python evaluation call: an uncaught exception, or a
returned value (None or a number). -/
inductive PyRes where
  | exn
  | ret (v : Option ℚ)
  deriving DecidableEq

/-- Binary._evalLeaf.  On CONSTANT and NUMBER leaves the source returns
leaf.value, but Token.__init__ never assigns a value attribute, so the
read raises AttributeError.  The VARIABLE arm is dead twice over:
variable tokens carry the tag "VAR", and the arm only prints TODO and
falls through to return None.  MACRO leaves delegate to Macroleaf.eval,
which is outside the source files and is kept as a parameter. -/
def evalLeaf (macroEval : Node → PyRes) (leaf : Node) : PyRes :=
  if leaf.type = "CONSTANT" ∨ leaf.type = "NUMBER" then .exn
  else if leaf.type = "VARIABLE" then .ret none
  else if leaf.type = "MACRO" then macroEval leaf
  else .ret none

/-- Binary.eval.  With more than one element the source calls _evalOp with
keyword arguments that its signature (self, leaf) does not accept:
TypeError.  On an empty stack, reading stack[0] raises IndexError.  In
the one-element base case the result of _evalLeaf is bound to a local
variable and the function falls off its end, returning None. -/
def binEval (macroEval : Node → PyRes) (stack : List Node) : PyRes :=
  if 1 < stack.length then .exn
  else
    match stack with
    | [] => .exn
    | x :: _ =>
      match evalLeaf macroEval x with
      | .exn => .exn
      | .ret _ => .ret none

/-! ### Specification-side definitions used only in statements -/

/-- Concatenated literal text of a token list. -/
def concatNames (ts : List Token) : List Char :=
  (ts.map Token.name).flatten

/-- An identifier character: letter, digit or underscore. -/
def identChar (c : Char) : Bool :=
  isAlphaC c || isDigitC c || c = '_'

/-- The alternation invariant of a Binary stack: odd length, operands at
even positions, INFIX nodes at odd positions. -/
def stackAlt : List Node → Bool
  | [] => false
  | [x] => operandTypes.contains x.type
  | x :: o :: rest =>
    operandTypes.contains x.type && decide (o.type = "INFIX") && stackAlt rest

mutual

/-- Deep well-formedness of a node: a token is well formed; a Macroleaf
needs every argument stack well formed. -/
def nodeWF : Node → Bool
  | .tk _ => true
  | .mk _ args => argsWF args

/-- Deep well-formedness of a Macroleaf argument list. -/
def argsWF : List (List Node) → Bool
  | [] => true
  | s :: rest => stackWF s && argsWF rest

/-- Deep well-formedness of a stack: the alternation invariant at this
level, and recursively inside every Macroleaf. -/
def stackWF : List Node → Bool
  | [] => false
  | [x] => operandTypes.contains x.type && nodeWF x
  | x :: o :: rest =>
    operandTypes.contains x.type && nodeWF x && decide (o.type = "INFIX")
      && stackWF rest

end

/-- The priorities of the INFIX nodes of a stack. -/
def prios (l : List Node) : List Int :=
  (l.filter (fun e => e.type = "INFIX")).map Node.priority

/-- The number of distinct priority levels present in a stack. -/
def distinctPrioCount (l : List Node) : Nat :=
  (prios l).dedup.length

/-- All INFIX nodes of the stack carry one same priority. -/
def samePrio (l : List Node) : Prop :=
  ∀ x ∈ l, ∀ y ∈ l, x.type = "INFIX" → y.type = "INFIX" → x.priority = y.priority

/-- The stack of the expression 1*-4 (as built by Binary._buildStack from
its tokens). -/
def oneStarMinusFour : List Node :=
  [Node.tk (mkToken ( "1".data)), Node.tk (mkToken ( "*".data)),
   Node.tk (mkToken ( "-".data)), Node.tk (mkToken ( "4".data))]

/-- The inner stack of the expression 3^-4. -/
def threeCaretMinusFour : List Node :=
  [Node.tk (mkToken ( "3".data)), Node.tk (mkToken ( "^".data)),
   Node.tk (mkToken ( "-".data)), Node.tk (mkToken ( "4".data))]

/-- A five-node stack whose last operand is a Macroleaf that still holds
the power-minus pattern: 1 + 2 * (3^-4) before opposite-wrapping. -/
def fiveNodeMacroStack : List Node :=
  [Node.tk (mkToken ( "1".data)), Node.tk (mkToken ( "+".data)),
   Node.tk (mkToken ( "2".data)), Node.tk (mkToken ( "*".data)),
   Node.mk ( "id".data) [threeCaretMinusFour]]

/-- An operator-led alternating segment ending on an operand. -/
def stackAltO : List Node → Bool
  | [] => false
  | o :: rest => decide (o.type = "INFIX") && stackAlt rest

/-- An operand-led alternating segment ending on an operator. -/
def altLD : List Node → Bool
  | [] => false
  | [_] => false
  | [x, o] => operandTypes.contains x.type && decide (o.type = "INFIX")
  | x :: o :: rest =>
    operandTypes.contains x.type && decide (o.type = "INFIX") && altLD rest

/-- An operator-led alternating segment ending on an operator. -/
def altOD : List Node → Bool
  | [] => false
  | [o] => decide (o.type = "INFIX")
  | o :: rest => decide (o.type = "INFIX") && altLD rest

/-- The element/flag pair list built by splitOpMarks, starting at offset
base of the underlying stack (the whole pair list is the offset-0
instance). -/
def pairsFrom (u : List Node) (p : Int) (base : Nat) (v : List Node) : List (Node × Bool) :=
  (List.range v.length).map (fun j => (v.getD j defaultNode, isTopF u p (base + j)))

/-- The flagged chain structure of an operand-led suffix of a marked
well-formed stack: the first operand carries its left operator flag
joined with the flag of the operator after it, every operator carries
its own flag, and the pattern repeats. -/
inductive FCA : Bool → List (Node × Bool) → Prop where
  | last : ∀ (x : Node) (fL : Bool), operandTypes.contains x.type = true →
      FCA fL [(x, fL)]
  | step : ∀ (x o : Node) (fL fo : Bool) (rest : List (Node × Bool)),
      operandTypes.contains x.type = true → o.type = "INFIX" →
      FCA fo rest →
      FCA fL ((x, fL || fo) :: (o, fo) :: rest)

/-- The flagged chain structure of an operator-led suffix. -/
inductive FCB : List (Node × Bool) → Prop where
  | step : ∀ (o : Node) (fo : Bool) (rest : List (Node × Bool)),
      o.type = "INFIX" → FCA fo rest → FCB ((o, fo) :: rest)

/-- The step function of the getPriorityRange fold, named for reasoning. -/
def rangeStep (mm : Int × Int) (e : Node) : Int × Int :=
  if e.type = "INFIX" then
    ((if e.priority < mm.1 then e.priority else mm.1),
     (if mm.2 < e.priority then e.priority else mm.2))
  else mm

/-- Re-expand a chunk list into element/flag pairs, every element of a
chunk tagged with the chunk flag; splitting then retagging is the
identity on the original pair list. -/
def retag (cs : List (List Node × Bool)) : List (Node × Bool) :=
  (cs.map (fun c => c.1.map (fun nd => (nd, c.2)))).flatten

/-- The attributes of a node read by the folding loop: its type tag and
its priority. -/
def nodeKey (e : Node) : String × Int := (e.type, e.priority)

/-- The stack of the expression 1+2*3: two distinct infix priorities. -/
def onePlusTwoTimesThree : List Node :=
  [Node.tk (mkToken ( "1".data)), Node.tk (mkToken ( "+".data)),
   Node.tk (mkToken ( "2".data)), Node.tk (mkToken ( "*".data)),
   Node.tk (mkToken ( "3".data))]

/-! ### Theorems -/

/-- Helper: the two components of split always reassemble the input. -/
theorem split_cat (s : List Char) (n : Int) : (split s n).1 ++ (split s n).2 = s := by
  unfold split
  split_ifs with h1 h2 h3
  · simp [h1]
  · simp
  · simp
  · exact List.take_append_drop _ _

/-- C10: the string utilities are exact decompositions: split(s, n) always
reassembles to s, with an empty head for n at most 0 and the full string
for n at least len(s); pop(s) yields the first character and the rest,
reassembling to s, with both components empty on the empty string. -/
theorem c10_split_pop_exact : ∀ (s : List Char) (n : Int),
    (split s n).1 ++ (split s n).2 = s
    ∧ (n ≤ 0 → (split s n).1 = [])
    ∧ ((s.length : Int) ≤ n → (split s n).1 = s)
    ∧ (pop s).1 ++ (pop s).2 = s
    ∧ (pop s).1 = s.take 1
    ∧ (pop s).2 = s.drop 1
    ∧ (s = [] → pop s = ([], [])) := by
  intro s n
  refine ⟨split_cat s n, ?_, ?_, ?_, ?_, ?_, ?_⟩
  · intro hn
    unfold split
    split_ifs with h1 h2
    · rfl
    · exfalso; omega
    · rfl
  · intro hn
    unfold split
    split_ifs with h1 h2 h3
    · simp [h1]
    · rfl
    · exfalso
      have hz : s.length = 0 := by omega
      exact h1 (List.length_eq_zero.mp hz)
    · have : n = (s.length : Int) := by omega
      simp [this]
  · unfold pop
    split_ifs with h1 h2
    · simp [h1]
    · simp
    · exact List.take_append_drop _ _
  · unfold pop
    split_ifs with h1 h2
    · simp [h1]
    · rw [List.take_of_length_le (by omega)]
    · rfl
  · unfold pop
    split_ifs with h1 h2
    · simp [h1]
    · rw [List.drop_of_length_le (by omega)]
    · rfl
  · intro h
    simp [pop, h]

/-- Witness for C10 at the concrete inputs of the source docstrings. -/
theorem c10_split_pop_exact_witness :
    (split ( "pouet".data) (-1)).1 = [] ∧ (split ( "pouet".data) 100).1 = "pouet".data := by
  exact ⟨(c10_split_pop_exact ( "pouet".data) (-1)).2.1 (by decide),
         (c10_split_pop_exact ( "pouet".data) 100).2.2.1 (by decide)⟩

/-- C1: the Multiplication Expander does not insert a multiplication token
between a number and a constant, nor between a closing bracket and a
constant: the match arms for those pairs compare against the tag "CONST"
while constant tokens carry the tag "CONSTANT" (the source comments give
the examples 2pi and (x+1)pi for exactly these arms, and the spec lists
both pairs among the insertion patterns), so the tokens of 2pi and of
)pi pass through unchanged. -/
theorem c1_expandMult_dead_const_arms :
    expandMult [mkToken ( "2".data), mkToken ( "pi".data)]
      = [mkToken ( "2".data), mkToken ( "pi".data)]
    ∧ expandMult [mkToken ( ")".data), mkToken ( "pi".data)]
      = [mkToken ( ")".data), mkToken ( "pi".data)]
    ∧ (mkToken ( "2".data)).type = "NUMBER"
    ∧ (mkToken ( "pi".data)).type = "CONSTANT"
    ∧ (mkToken ( ")".data)).type = "BRKT_CLOSE"
    ∧ expandMult [mkToken ( "2".data), mkToken ( "x".data)]
      = [mkToken ( "2".data), mkToken ( "*".data), mkToken ( "x".data)] :=
  ⟨rfl, rfl, rfl, rfl, rfl, rfl⟩

/-- Helper for C9: one tokenize iteration on the unsupported character $
consumes nothing and leaves the input unchanged. -/
theorem tokenize_dollar_step (n : Nat) :
    tokenizeFuel (n + 1) ( "$".data) = tokenizeFuel n ( "$".data) := rfl

/-- C9: tokenize does not terminate on an input whose head character
matches no rule: on the input $ every iteration of the while loop leaves
the input unchanged (no branch of the loop consumes the character), so
no amount of fuel finishes the run — the source loops forever instead of
returning a token list or reporting an error. -/
theorem c9_tokenize_dollar_diverges :
    ∀ fuel, tokenizeFuel fuel ( "$".data) = .outOfFuel := by
  intro fuel
  induction fuel with
  | zero => rfl
  | succ n ih => rw [tokenize_dollar_step]; exact ih

/-- Helper for C2: once the scan of _minusAsOpp reaches the adjacent pair
of infix operators * and -, the loop repeats the same state forever. -/
theorem minusAsOpp_star_minus_stuck :
    ∀ (f : Nat) (acc : List Node), minusAsOppLoop f oneStarMinusFour 1 acc = none := by
  intro f
  induction f with
  | zero => intro acc; rfl
  | succ n ih => intro acc; exact ih acc

/-- C2: on the normalized stack built from 1*-4 — the four nodes
1, *, -, 4 — the opposite-wrapping pass does not terminate: the outer
branch for two adjacent infix nodes fires, its inner power-minus test
fails, nothing is appended and the index is not advanced, so the while
loop retries the same state forever; the pass neither accepts (with the
documented warning and the op1, opp(operand) rewrite) nor rejects. -/
theorem c2_minusAsOpp_diverges :
    ∀ fuel, minusAsOppStack fuel oneStarMinusFour = none := by
  intro fuel
  match fuel with
  | 0 => rfl
  | 1 => rfl
  | (g + 2) => exact minusAsOpp_star_minus_stuck g _

/-- C8: the evaluator base case returns no operand value.  On a Binary
whose stack is the single number 3, _evalLeaf reads leaf.value although
Token.__init__ never assigns a value attribute (AttributeError, embedded
as the exception outcome), instead of yielding 3; on a single variable
leaf, eval returns None — _evalLeaf compares against the tag "VARIABLE"
although variable tokens carry "VAR", and eval never returns the value
computed — instead of resolving the binding (or failing on an
undeclared variable).  This holds whatever Macroleaf.eval does, which is
why the statement quantifies over it. -/
theorem c8_eval_base_case_broken :
    ∀ macroEval : Node → PyRes,
      binEval macroEval [Node.tk (mkToken ( "3".data))] = .exn
      ∧ binEval macroEval [Node.tk (mkToken ( "x".data))] = .ret none
      ∧ (mkToken ( "3".data)).type = "NUMBER"
      ∧ (mkToken ( "x".data)).type = "VAR" :=
  fun _ => ⟨rfl, rfl, rfl, rfl⟩

/-- C6: the opposite-wrapping pass is not applied to the Macroleaf
operands of a stack with four or more nodes: on the five-node stack
1 + 2 * M where the Macroleaf M holds the stack 3 ^ - 4, _balanceMinus
returns the stack unchanged — the power-minus pattern inside M is left
as two adjacent operators — although the same pass applied directly to
the inner stack would rewrite it to 3 ^ opp(4).  (The recursion into
macroleaves appears only in the fewer-than-four-nodes branch of
_minusAsOpp; _explicitZeros does recurse, but does not touch this
input.) -/
theorem c6_minusAsOpp_skips_macro_args :
    balanceMinusStack 40 fiveNodeMacroStack = some fiveNodeMacroStack
    ∧ minusAsOppStack 40 threeCaretMinusFour
      = some [Node.tk (mkToken ( "3".data)), Node.tk (mkToken ( "^".data)),
              Node.mk ( "opp".data) [[Node.tk (mkToken ( "4".data))]]]
    ∧ (Node.mk ( "id".data) [threeCaretMinusFour]).type = "MACRO" :=
  ⟨rfl, rfl, rfl⟩

/-- Helper: the element recursion of the explicit-zero pass keeps the
length of the stack. -/
theorem elems_len : ∀ (fuel : Nat) (l l' : List Node),
    explicitZerosElems fuel l = some l' → l'.length = l.length := by
  intro fuel
  induction fuel with
  | zero => intro l l' h; exact absurd h (by simp [explicitZerosElems])
  | succ n ih =>
    intro l l' h
    cases l with
    | nil => simp [explicitZerosElems] at h; simp [← h]
    | cons x rest =>
      simp only [explicitZerosElems] at h
      cases hx : explicitZerosNode n x with
      | none => rw [hx] at h; simp at h
      | some x2 =>
        cases hr : explicitZerosElems n rest with
        | none => rw [hx, hr] at h; simp at h
        | some rest2 =>
          rw [hx, hr] at h
          simp only [Option.some_inj] at h
          subst h
          simp [ih rest rest2 hr]

/-- C4 counterexample: a one-node stack holding only the infix minus
begins with an infix minus, yet the explicit-zero pass prepends nothing
(the pass requires at least two nodes), so the prepend does not happen
exactly when the stack begins with an infix minus. -/
theorem c4_single_minus_not_prepended :
    explicitZerosStack 9 [Node.tk (mkToken ( "-".data))]
      = some [Node.tk (mkToken ( "-".data))]
    ∧ (mkToken ( "-".data)).type = "INFIX"
    ∧ (mkToken ( "-".data)).name = "-".data :=
  ⟨rfl, rfl, rfl⟩

/-- C4 (amended: the zero leaf is prepended exactly when the stack has at
least two nodes and begins with an infix minus): the documented cases
hold — the tokens of -x build the stack -, x which normalizes to the
explicit chain 0, -, x, and the tokens of 2^-4 build the stack
2, ^, -, 4 which normalizes to 2, ^, opp(4), the minus being absorbed
into an opp Macroleaf argument of ^ — and in general a run of the
explicit-zero pass grows the stack by the prepended zero exactly when
the input stack has at least two nodes and starts with the infix
minus. -/
theorem c4_minus_balancing :
    (tokenizeFuel 9 ( "-x".data) = .ok [mkToken ( "-".data), mkToken ( "x".data)]
      ∧ buildStackFuel 9 [mkToken ( "-".data), mkToken ( "x".data)]
        = some ([Node.tk (mkToken ( "-".data)), Node.tk (mkToken ( "x".data))], [], .exhausted)
      ∧ balanceMinusStack 40 [Node.tk (mkToken ( "-".data)), Node.tk (mkToken ( "x".data))]
        = some [Node.tk zeroToken, Node.tk (mkToken ( "-".data)), Node.tk (mkToken ( "x".data))])
    ∧ (tokenizeFuel 9 ( "2^-4".data)
        = .ok [mkToken ( "2".data), mkToken ( "^".data), mkToken ( "-".data), mkToken ( "4".data)]
      ∧ buildStackFuel 9 [mkToken ( "2".data), mkToken ( "^".data), mkToken ( "-".data), mkToken ( "4".data)]
        = some ([Node.tk (mkToken ( "2".data)), Node.tk (mkToken ( "^".data)),
                 Node.tk (mkToken ( "-".data)), Node.tk (mkToken ( "4".data))], [], .exhausted)
      ∧ balanceMinusStack 40 [Node.tk (mkToken ( "2".data)), Node.tk (mkToken ( "^".data)),
                              Node.tk (mkToken ( "-".data)), Node.tk (mkToken ( "4".data))]
        = some [Node.tk (mkToken ( "2".data)), Node.tk (mkToken ( "^".data)),
                Node.mk ( "opp".data) [[Node.tk (mkToken ( "4".data))]]])
    ∧ (∀ (fuel : Nat) (s s' : List Node),
        explicitZerosStack fuel s = some s' →
          (s'.length = s.length + 1 ↔
            2 ≤ s.length ∧ (s.headD defaultNode).type = "INFIX"
              ∧ (s.headD defaultNode).name = "-".data)) := by
  refine ⟨⟨rfl, rfl, rfl⟩, ⟨rfl, rfl, rfl⟩, ?_⟩
  intro fuel s s' h
  cases fuel with
  | zero => exact absurd h (by simp [explicitZerosStack])
  | succ n =>
    match s with
    | x :: y :: rest =>
      simp only [explicitZerosStack] at h
      by_cases hc : x.type = "INFIX" ∧ x.name = "-".data
      · rw [if_pos hc] at h
        have hl := elems_len n _ _ h
        simp only [List.length_cons] at hl ⊢
        constructor
        · intro _; exact ⟨by omega, hc.1, hc.2⟩
        · intro _; omega
      · rw [if_neg hc] at h
        have hl := elems_len n _ _ h
        simp only [List.length_cons] at hl ⊢
        constructor
        · intro hlen; omega
        · intro hr
          exact absurd ⟨hr.2.1, hr.2.2⟩ hc
    | [x] =>
      simp only [explicitZerosStack] at h
      have hl := elems_len n _ _ h
      simp only [List.length_cons, List.length_nil] at hl ⊢
      constructor
      · intro hlen; omega
      · intro hr; omega
    | [] =>
      simp only [explicitZerosStack] at h
      have hl := elems_len n _ _ h
      simp only [List.length_nil] at hl ⊢
      constructor
      · intro hlen; omega
      · intro hr; omega

/-- Witness for C4 at the concrete stack of -x. -/
theorem c4_minus_balancing_witness :
    ([Node.tk zeroToken, Node.tk (mkToken ( "-".data)), Node.tk (mkToken ( "x".data))].length
      = [Node.tk (mkToken ( "-".data)), Node.tk (mkToken ( "x".data))].length + 1) :=
  (c4_minus_balancing.2.2 40
      [Node.tk (mkToken ( "-".data)), Node.tk (mkToken ( "x".data))]
      [Node.tk zeroToken, Node.tk (mkToken ( "-".data)), Node.tk (mkToken ( "x".data))]
      rfl).mpr
    ⟨by simp, rfl, rfl⟩

/-- Helper: the head of a dropped list read with a default is the indexed
read with the same default. -/
theorem dropHeadD (l : List Char) (n : Nat) : (l.drop n).headD ' ' = l.getD n ' ' := by
  rw [List.headD_eq_head?, List.head?_drop, List.getD_eq_getElem?_getD]

/-- Helper for C5: any nonempty match returned by the consumeConst scan is
a known constant name, decomposes the input exactly, and is never
followed by a letter or an underscore. -/
theorem consumeConstGo_sound (s : List Char) : ∀ (k n : Nat) (h t : List Char),
    consumeConstGo s n k = (h, t) → h ≠ [] →
      h ++ t = s ∧ constNames.contains h
        ∧ (t = [] ∨ (¬ isAlphaC (t.headD ' ') ∧ t.headD ' ' ≠ '_')) := by
  intro k
  induction k with
  | zero =>
    intro n h t he hne
    simp only [consumeConstGo] at he
    cases he
    exact absurd rfl hne
  | succ k ih =>
    intro n h t he hne
    simp only [consumeConstGo] at he
    by_cases h1 : constNames.contains (s.take n)
    · rw [if_pos h1] at he
      by_cases h2 : n = s.length
      · rw [if_pos h2] at he
        cases he
        refine ⟨by simp [h2], h1, Or.inl rfl⟩
      · rw [if_neg h2] at he
        by_cases h3 : s.getD n ' ' = '_'
        · rw [if_pos h3] at he
          cases he
          exact absurd rfl hne
        · rw [if_neg h3] at he
          by_cases h4 : isAlphaC (s.getD n ' ')
          · rw [if_pos h4] at he
            exact ih (n + 1) h t he hne
          · rw [if_neg h4] at he
            cases he
            refine ⟨List.take_append_drop _ _, h1, Or.inr ?_⟩
            rw [dropHeadD]
            exact ⟨by simpa using h4, h3⟩
    · rw [if_neg h1] at he
      exact ih (n + 1) h t he hne


theorem ccSkip (s : List Char) (n k : Nat)
    (h : constNames.contains (s.take n) = false) :
    consumeConstGo s n (k + 1) = consumeConstGo s (n + 1) k := by
  rw [consumeConstGo, if_neg (by simpa using h)]

theorem ccDefer (s : List Char) (n k : Nat)
    (h1 : constNames.contains (s.take n) = true) (h2 : n ≠ s.length)
    (h3 : s.getD n ' ' ≠ '_') (h4 : isAlphaC (s.getD n ' ') = true) :
    consumeConstGo s n (k + 1) = consumeConstGo s (n + 1) k := by
  rw [consumeConstGo, if_pos (by simpa using h1), if_neg h2, if_neg h3,
    if_pos h4]

theorem ccAccept (s : List Char) (n k : Nat)
    (h1 : constNames.contains (s.take n) = true) (h2 : n ≠ s.length)
    (h3 : s.getD n ' ' ≠ '_') (h4 : isAlphaC (s.getD n ' ') = false) :
    consumeConstGo s n (k + 1) = (s.take n, s.drop n) := by
  rw [consumeConstGo, if_pos (by simpa using h1), if_neg h2, if_neg h3,
    if_neg (by rw [List.getD_eq_getElem?_getD] at h4; simp [h4])]

theorem consumeConst_pi (t : List Char)
    (hc : t = [] ∨ (isAlphaC (t.headD ' ') = false ∧ t.headD ' ' ≠ '_')) :
    consumeConst ( "pi".data ++ t) = ( "pi".data, t) := by
  rcases t with _ | ⟨a, t2⟩
  · rfl
  · rcases hc with hnil | ⟨ha, hu⟩
    · exact absurd hnil (by simp)
    · rw [show List.headD (a :: t2) ' ' = a from rfl] at ha hu
      show consumeConst ('p' :: 'i' :: a :: t2) = ('p' :: 'i' :: [], a :: t2)
      unfold consumeConst
      rw [show ('p' :: 'i' :: a :: t2).length = (t2.length + 2) + 1 from rfl]
      rw [ccSkip ('p' :: 'i' :: a :: t2) 1 (t2.length + 2) rfl]
      rw [show t2.length + 2 = (t2.length + 1) + 1 from rfl]
      rw [ccAccept ('p' :: 'i' :: a :: t2) 2 (t2.length + 1) rfl (by intro h; simp at h)
        (by rw [show ('p' :: 'i' :: a :: t2).getD 2 ' ' = a from rfl]; exact hu)
        (by rw [show ('p' :: 'i' :: a :: t2).getD 2 ' ' = a from rfl]; exact ha)]
      rfl

theorem consumeConst_i (t : List Char)
    (hc : t = [] ∨ (isAlphaC (t.headD ' ') = false ∧ t.headD ' ' ≠ '_')) :
    consumeConst ( "i".data ++ t) = ( "i".data, t) := by
  rcases t with _ | ⟨a, t2⟩
  · rfl
  · rcases hc with hnil | ⟨ha, hu⟩
    · exact absurd hnil (by simp)
    · rw [show List.headD (a :: t2) ' ' = a from rfl] at ha hu
      show consumeConst ('i' :: a :: t2) = ('i' :: [], a :: t2)
      unfold consumeConst
      rw [show ('i' :: a :: t2).length = (t2.length + 1) + 1 from rfl]
      rw [ccAccept ('i' :: a :: t2) 1 (t2.length + 1) rfl (by intro h; simp at h)
        (by rw [show ('i' :: a :: t2).getD 1 ' ' = a from rfl]; exact hu)
        (by rw [show ('i' :: a :: t2).getD 1 ' ' = a from rfl]; exact ha)]
      rfl

theorem consumeConst_eps (t : List Char)
    (hc : t = [] ∨ (isAlphaC (t.headD ' ') = false ∧ t.headD ' ' ≠ '_')) :
    consumeConst ( "eps".data ++ t) = ( "eps".data, t) := by
  rcases t with _ | ⟨a, t2⟩
  · rfl
  · rcases hc with hnil | ⟨ha, hu⟩
    · exact absurd hnil (by simp)
    · rw [show List.headD (a :: t2) ' ' = a from rfl] at ha hu
      show consumeConst ('e' :: 'p' :: 's' :: a :: t2) = ('e' :: 'p' :: 's' :: [], a :: t2)
      unfold consumeConst
      rw [show ('e' :: 'p' :: 's' :: a :: t2).length = (t2.length + 3) + 1 from rfl]
      rw [ccSkip ('e' :: 'p' :: 's' :: a :: t2) 1 (t2.length + 3) rfl]
      rw [show t2.length + 3 = (t2.length + 2) + 1 from rfl]
      rw [ccSkip ('e' :: 'p' :: 's' :: a :: t2) 2 (t2.length + 2) rfl]
      rw [show t2.length + 2 = (t2.length + 1) + 1 from rfl]
      rw [ccAccept ('e' :: 'p' :: 's' :: a :: t2) 3 (t2.length + 1) rfl
        (by intro h; simp at h)
        (by rw [show ('e' :: 'p' :: 's' :: a :: t2).getD 3 ' ' = a from rfl]; exact hu)
        (by rw [show ('e' :: 'p' :: 's' :: a :: t2).getD 3 ' ' = a from rfl]; exact ha)]
      rfl

theorem consumeConst_inf (t : List Char)
    (hc : t = [] ∨ (isAlphaC (t.headD ' ') = false ∧ t.headD ' ' ≠ '_')) :
    consumeConst ( "inf".data ++ t) = ( "inf".data, t) := by
  rcases t with _ | ⟨a, t2⟩
  · rfl
  · rcases hc with hnil | ⟨ha, hu⟩
    · exact absurd hnil (by simp)
    · rw [show List.headD (a :: t2) ' ' = a from rfl] at ha hu
      show consumeConst ('i' :: 'n' :: 'f' :: a :: t2) = ('i' :: 'n' :: 'f' :: [], a :: t2)
      unfold consumeConst
      rw [show ('i' :: 'n' :: 'f' :: a :: t2).length = (t2.length + 3) + 1 from rfl]
      rw [ccDefer ('i' :: 'n' :: 'f' :: a :: t2) 1 (t2.length + 3) rfl
        (by intro h; simp at h)
        (by rw [show ('i' :: 'n' :: 'f' :: a :: t2).getD 1 ' ' = 'n' from rfl]; decide)
        rfl]
      rw [show t2.length + 3 = (t2.length + 2) + 1 from rfl]
      rw [ccSkip ('i' :: 'n' :: 'f' :: a :: t2) 2 (t2.length + 2) rfl]
      rw [show t2.length + 2 = (t2.length + 1) + 1 from rfl]
      rw [ccAccept ('i' :: 'n' :: 'f' :: a :: t2) 3 (t2.length + 1) rfl
        (by intro h; simp at h)
        (by rw [show ('i' :: 'n' :: 'f' :: a :: t2).getD 3 ' ' = a from rfl]; exact hu)
        (by rw [show ('i' :: 'n' :: 'f' :: a :: t2).getD 3 ' ' = a from rfl]; exact ha)]
      rfl

theorem consumeConst_accepts (c : List Char) (hc : c ∈ constNames) (t : List Char)
    (ht : t = [] ∨ (isAlphaC (t.headD ' ') = false ∧ t.headD ' ' ≠ '_')) :
    consumeConst (c ++ t) = (c, t) := by
  simp only [constNames, List.mem_cons, List.not_mem_nil, or_false] at hc
  rcases hc with h | h | h | h <;> subst h
  · exact consumeConst_pi t ht
  · exact consumeConst_i t ht
  · exact consumeConst_eps t ht
  · exact consumeConst_inf t ht

theorem consumeConst_defers (c t : List Char) (hcne : c ≠ []) (htne : t ≠ [])
    (hl : isAlphaC (t.headD ' ') = true ∨ t.headD ' ' = '_') :
    consumeConst (c ++ t) ≠ (c, t) := by
  intro heq
  have hs := consumeConstGo_sound (c ++ t) (c ++ t).length 1 c t heq hcne
  rcases hs.2.2 with h0 | ⟨h1, h2⟩
  · exact htne h0
  · rcases hl with hl | hl
    · exact h1 hl
    · exact h2 hl

/-- C5 counterexample: a constant match followed by a digit is accepted,
not rejected: consumeConst takes the constant pi off pi3, although the
digit 3 extends pi into the longer identifier pi3. -/
theorem c5_pi3_accepted :
    consumeConst ( "pi3".data) = ( "pi".data, "3".data) := rfl

/-- C5 (amended: the lexer accepts a leading known-constant match iff the
character that follows is neither a letter — which defers to a longer
constant match — nor an underscore; in particular a reserved word
extended with a letter is never tokenized as that reserved word, e.g.
pixel yields the single variable token pixel, while a constant match
followed by a digit IS accepted: pi3 is the constant pi followed by 3):
every accepted constant match decomposes the input exactly, is a known
constant and is never followed by a letter or an underscore; conversely
every known constant followed by anything but a letter or an underscore
is accepted with exactly that decomposition; a claimed constant match
followed by a letter or an underscore is never returned; and the two
concrete tokenizations pixel and pi3 behave as stated. -/
theorem c5_consumeConst_lookahead :
    (∀ s : List Char, (consumeConst s).1 ≠ [] →
      (consumeConst s).1 ++ (consumeConst s).2 = s
        ∧ constNames.contains (consumeConst s).1
        ∧ ((consumeConst s).2 = []
            ∨ (¬ isAlphaC ((consumeConst s).2.headD ' ')
                ∧ (consumeConst s).2.headD ' ' ≠ '_')))
    ∧ (∀ c ∈ constNames, ∀ t : List Char,
        (t = [] ∨ (isAlphaC (t.headD ' ') = false ∧ t.headD ' ' ≠ '_')) →
        consumeConst (c ++ t) = (c, t))
    ∧ (∀ c t : List Char, c ≠ [] → t ≠ [] →
        (isAlphaC (t.headD ' ') = true ∨ t.headD ' ' = '_') →
        consumeConst (c ++ t) ≠ (c, t))
    ∧ tokenizeFuel 2 ( "pixel".data) = .ok [⟨ "VAR", "pixel".data⟩]
    ∧ consumeConst ( "pi3".data) = ( "pi".data, "3".data) := by
  refine ⟨?_, ?_, ?_, rfl, rfl⟩
  · intro s hne
    exact consumeConstGo_sound s s.length 1 _ _ rfl hne
  · exact fun c hc t ht => consumeConst_accepts c hc t ht
  · exact fun c t h1 h2 h3 => consumeConst_defers c t h1 h2 h3

/-- Witness for C5 at the concrete inputs pi*12 (an accepted match, its
decomposition, and the acceptance direction of the iff) and pixel (a
letter lookahead never yields the reserved-word match pi). -/
theorem c5_consumeConst_lookahead_witness :
    ((consumeConst ( "pi*12".data)).1 ++ (consumeConst ( "pi*12".data)).2
        = "pi*12".data
      ∧ constNames.contains (consumeConst ( "pi*12".data)).1
      ∧ ((consumeConst ( "pi*12".data)).2 = []
          ∨ (¬ isAlphaC ((consumeConst ( "pi*12".data)).2.headD ' ')
              ∧ (consumeConst ( "pi*12".data)).2.headD ' ' ≠ '_')))
    ∧ consumeConst ( "pi".data ++ "*12".data) = ( "pi".data, "*12".data)
    ∧ consumeConst ( "pi".data ++ "xel".data) ≠ ( "pi".data, "xel".data) :=
  ⟨c5_consumeConst_lookahead.1 ( "pi*12".data) (by decide),
   c5_consumeConst_lookahead.2.1 ( "pi".data) (by decide) ( "*12".data) (by decide),
   c5_consumeConst_lookahead.2.2.1 ( "pi".data) ( "xel".data) (by decide)
     (by decide) (by decide)⟩

/-- Helper: split at a natural index is take and drop. -/
theorem split_nat (s : List Char) (n : Nat) : split s (n : Int) = (s.take n, s.drop n) := by
  unfold split
  split_ifs with h1 h2 h3
  · simp [h1]
  · have : s.length ≤ n := by exact_mod_cast le_of_lt (by exact_mod_cast h2)
    simp [List.take_of_length_le this, List.drop_of_length_le this]
  · have : n = 0 := by omega
    simp [this]
  · simp

/-- Helper: an out-of-range defaulted read yields the default. -/
theorem getD_none (s : List Char) (n : Nat) (hge : s.length ≤ n) : s.getD n ' ' = ' ' := by
  rw [List.getD_eq_getElem?_getD, List.getElem?_eq_none hge]
  rfl

/-- Helper: an in-range defaulted read is the indexed element. -/
theorem getD_get (s : List Char) (n : Nat) (hn : n < s.length) : s.getD n ' ' = s[n] := by
  rw [List.getD_eq_getElem?_getD, List.getElem?_eq_getElem hn]
  rfl

/-- Helper: the space scan yields an all-space prefix and the rest. -/
theorem consumeSpaceGo_sound (s : List Char) : ∀ (k n : Nat) (h t : List Char),
    (s.take n).all (fun c => c = ' ') = true →
    consumeSpaceGo s n k = some (h, t) →
      h ++ t = s ∧ h.all (fun c => c = ' ') = true := by
  intro k
  induction k with
  | zero => intro n h t _ he; simp [consumeSpaceGo] at he
  | succ k ih =>
    intro n h t hall he
    simp only [consumeSpaceGo] at he
    by_cases hc : s.getD n ' ' ≠ ' '
    · rw [if_pos hc] at he
      simp only [Option.some_inj] at he
      rw [split_nat] at he
      cases he
      exact ⟨List.take_append_drop _ _, hall⟩
    · rw [if_neg hc] at he
      refine ih (n + 1) h t ?_ he
      rw [not_not] at hc
      by_cases hn : n < s.length
      · rw [List.take_succ]
        simp only [List.all_append, hall, Bool.true_and]
        simp [List.getElem?_eq_getElem hn]
        rwa [getD_get s n hn] at hc
      · rw [List.take_of_length_le (by omega)]
        rwa [List.take_of_length_le (by omega)] at hall

/-- Helper: consumeSpace decomposition. -/
theorem consumeSpace_sound (s : List Char) (h t : List Char)
    (he : consumeSpace s = some (h, t)) :
    h ++ t = s ∧ h.all (fun c => c = ' ') = true :=
  consumeSpaceGo_sound s s.length 0 h t (by simp) he

/-- Helper: the number scan only ever keeps a valid number prefix. -/
theorem consumeNumberGo_sound (s : List Char) : ∀ (k n nMax : Nat),
    (nMax = 0 ∨ isNumber (s.take nMax) = true) →
    (consumeNumberGo s n nMax k = 0
      ∨ isNumber (s.take (consumeNumberGo s n nMax k)) = true) := by
  intro k
  induction k with
  | zero => intro n nMax hP; simpa [consumeNumberGo] using hP
  | succ k ih =>
    intro n nMax hP
    simp only [consumeNumberGo]
    by_cases hc : isNumber (s.take n) = true
    · rw [if_pos hc]
      exact ih (n + 1) n (Or.inr hc)
    · rw [if_neg hc]
      exact hP

/-- Helper: consumeNumber decomposition and classification. -/
theorem consumeNumber_sound (s : List Char) :
    (consumeNumber s).1 ++ (consumeNumber s).2 = s
      ∧ ((consumeNumber s).1 = [] ∨ isNumber (consumeNumber s).1 = true) := by
  unfold consumeNumber
  split_ifs with h1
  · rw [split_nat]
    refine ⟨List.take_append_drop _ _, ?_⟩
    rcases consumeNumberGo_sound s s.length 1 0 (Or.inl rfl) with h | h
    · rw [h]; exact Or.inl rfl
    · exact Or.inr h
  · exact ⟨rfl, Or.inl rfl⟩

/-- Helper: the infix scan only ever keeps a known operator prefix. -/
theorem consumeInfixOpMax_sound (s : List Char) : ∀ (k n nMax : Nat),
    (nMax = 0 ∨ infixNames.contains (s.take nMax) = true) →
    (consumeInfixOpMax s n nMax k = 0
      ∨ infixNames.contains (s.take (consumeInfixOpMax s n nMax k)) = true) := by
  intro k
  induction k with
  | zero => intro n nMax hP; simpa [consumeInfixOpMax] using hP
  | succ k ih =>
    intro n nMax hP
    simp only [consumeInfixOpMax]
    by_cases hc : infixNames.contains (s.take n) = true
    · rw [if_pos hc]
      exact ih (n + 1) n (Or.inr hc)
    · rw [if_neg hc]
      exact ih (n + 1) nMax hP

/-- Helper: consumeInfix decomposition and classification. -/
theorem consumeInfixOp_sound (s : List Char) :
    (consumeInfixOp s).1 ++ (consumeInfixOp s).2 = s
      ∧ ((consumeInfixOp s).1 = [] ∨ infixNames.contains (consumeInfixOp s).1 = true) := by
  unfold consumeInfixOp
  rw [split_nat]
  refine ⟨List.take_append_drop _ _, ?_⟩
  rcases consumeInfixOpMax_sound s s.length 1 0 (Or.inl rfl) with h | h
  · rw [h]; exact Or.inl rfl
  · exact Or.inr h

/-- Helper: the function scan only ever keeps a name-plus-parenthesis
prefix. -/
theorem consumeFuncMax_sound (s : List Char) : ∀ (k n nMax : Nat),
    (nMax = 0 ∨ functionsExt.contains (s.take nMax) = true) →
    (consumeFuncMax s n nMax k = 0
      ∨ functionsExt.contains (s.take (consumeFuncMax s n nMax k)) = true) := by
  intro k
  induction k with
  | zero => intro n nMax hP; simpa [consumeFuncMax] using hP
  | succ k ih =>
    intro n nMax hP
    simp only [consumeFuncMax]
    by_cases hc : functionsExt.contains (s.take n) = true
    · rw [if_pos hc]
      exact ih (n + 1) n (Or.inr hc)
    · rw [if_neg hc]
      exact ih (n + 1) nMax hP

/-- Helper: consumeFunc either fails, or returns a known function name
whose text plus the opening parenthesis plus the rest is the input. -/
theorem consumeFunc_sound (s : List Char) :
    ((consumeFunc s).1 = [] ∧ (consumeFunc s).2 = s)
      ∨ (funcNames.contains (consumeFunc s).1 = true
          ∧ (consumeFunc s).1 ++ "(".data ++ (consumeFunc s).2 = s) := by
  unfold consumeFunc
  rcases consumeFuncMax_sound s s.length 1 0 (Or.inl rfl) with h | h
  · rw [h]; exact Or.inl ⟨rfl, rfl⟩
  · right
    rw [List.elem_iff] at h
    unfold functionsExt at h
    rw [List.mem_map] at h
    obtain ⟨f, hf, hfeq⟩ := h
    have hdl : (s.take (consumeFuncMax s 1 0 s.length)).dropLast = f := by
      rw [← hfeq]
      have : ("(".data : List Char) = [ '('] := rfl
      rw [this, List.dropLast_concat]
    constructor
    · rw [hdl]
      rw [List.elem_iff]
      exact hf
    · rw [hdl]
      have : f ++ "(".data = s.take (consumeFuncMax s 1 0 s.length) := hfeq
      rw [this]
      exact List.take_append_drop _ _

/-- Helper: a prefix whose defaulted reads are all identifier characters
passes the all-identifier check. -/
theorem take_all_ident (s : List Char) (m : Nat)
    (hall : ∀ i, i < m → identChar (s.getD i ' ') = true) :
    (s.take m).all identChar = true := by
  rw [List.all_eq_true]
  intro c hc
  rw [List.mem_iff_getElem] at hc
  obtain ⟨i, hi, hceq⟩ := hc
  have him : i < m := lt_of_lt_of_le hi (by simp [List.length_take])
  have hil : i < s.length := lt_of_lt_of_le hi (by simp [List.length_take])
  rw [List.getElem_take] at hceq
  rw [← hceq, ← getD_get s i hil]
  exact hall i him

/-- Helper: the variable scan yields a prefix/rest split whose inner
characters are identifier characters. -/
theorem consumeVarGo_sound (s : List Char) : ∀ (k n : Nat) (h t : List Char),
    s.length ≤ n + k →
    (∀ i, 1 ≤ i → i < n → identChar (s.getD i ' ') = true) →
    consumeVarGo s n k = (h, t) →
    ∃ m, h = s.take m ∧ t = s.drop m
      ∧ (∀ i, 1 ≤ i → i < m → identChar (s.getD i ' ') = true) := by
  intro k
  induction k with
  | zero =>
    intro n h t hlen hinv he
    simp only [consumeVarGo] at he
    cases he
    exact ⟨n, by rw [List.take_of_length_le (by omega)],
           by rw [List.drop_of_length_le (by omega)], hinv⟩
  | succ k ih =>
    intro n h t hlen hinv he
    simp only [consumeVarGo] at he
    by_cases h0 : s.length ≤ n
    · rw [if_pos h0] at he
      cases he
      exact ⟨n, by rw [List.take_of_length_le h0],
             by rw [List.drop_of_length_le h0], hinv⟩
    · rw [if_neg h0] at he
      by_cases h1 : isAlphaC (s.getD n ' ') || s.getD n ' ' = '_'
      · rw [if_pos h1] at he
        refine ih (n + 1) h t (by omega) ?_ he
        intro i hi1 hi2
        by_cases hin : i < n
        · exact hinv i hi1 hin
        · have : i = n := by omega
          subst this
          rcases Bool.or_eq_true _ _ |>.mp h1 with ha | hu
          · simp only [identChar, ha, Bool.true_or]
          · rw [show s.getD i ' ' = '_' from by simpa using hu]
            rfl
      · rw [if_neg h1] at he
        by_cases h2 : isDigitC (s.getD n ' ')
        · rw [if_pos h2] at he
          by_cases h3 : (consumeNumber (s.drop n)).1.contains '.'
          · rw [if_pos h3] at he
            cases he
            exact ⟨n, rfl, rfl, hinv⟩
          · rw [if_neg h3] at he
            refine ih (n + 1) h t (by omega) ?_ he
            intro i hi1 hi2
            by_cases hin : i < n
            · exact hinv i hi1 hin
            · have : i = n := by omega
              subst this
              simp only [identChar, h2, Bool.true_or, Bool.or_true]
        · rw [if_neg h2] at he
          cases he
          exact ⟨n, rfl, rfl, hinv⟩

/-- Helper: a nonempty unreserved prefix with a leading letter or
underscore and identifier characters inside is a valid variable name. -/
theorem checkVar_of_parts (s : List Char) (m : Nat)
    (hne : s.take m ≠ [])
    (hres : ((constNames ++ funcNames).contains (s.take m)) = false)
    (h0 : (isAlphaC (s.getD 0 ' ') || s.getD 0 ' ' = '_') = true)
    (hinv : ∀ i, 1 ≤ i → i < m → identChar (s.getD i ' ') = true) :
    checkVariableSyntax (s.take m) = true := by
  unfold checkVariableSyntax
  rw [hres, if_neg (by simp)]
  have hm : 0 < m := by
    by_contra hz
    exact hne (by simp [Nat.le_zero.mp (not_lt.mp hz)])
  have hs : 0 < s.length := by
    rcases Nat.eq_zero_or_pos s.length with hz | hp
    · exact absurd (by simp [List.length_eq_zero.mp hz]) hne
    · exact hp
  have hget0 : (s.take m).getD 0 ' ' = s.getD 0 ' ' := by
    rw [getD_get (s.take m) 0 (by simp only [List.length_take]; omega),
        getD_get s 0 hs, List.getElem_take]
  rw [if_neg ?_]
  · apply take_all_ident
    intro i hi
    by_cases hiz : i = 0
    · subst hiz
      rcases Bool.or_eq_true _ _ |>.mp h0 with ha | hu
      · simp only [identChar, ha, Bool.true_or]
      · rw [show s.getD 0 ' ' = '_' from by simpa using hu]
        rfl
    · exact hinv i (by omega) hi
  · rw [not_not, hget0]
    exact h0

/-- Helper: consumeVar either fails or returns a valid variable name and
the exact rest of the input. -/
theorem consumeVar_sound (s : List Char) :
    (consumeVar s).1 = []
      ∨ ((consumeVar s).1 ++ (consumeVar s).2 = s
          ∧ checkVariableSyntax (consumeVar s).1 = true) := by
  unfold consumeVar
  split_ifs with h0 h1
  · exact Or.inl rfl
  · obtain ⟨m, hm1, hm2, hminv⟩ :=
      consumeVarGo_sound s s.length 1 (consumeVarGo s 1 s.length).1
        (consumeVarGo s 1 s.length).2 (by omega) (by omega) rfl
    by_cases hemp : (consumeVarGo s 1 s.length).1 = []
    · exact Or.inl hemp
    · right
      refine ⟨by rw [hm1, hm2]; exact List.take_append_drop _ _, ?_⟩
      rw [hm1]
      refine checkVar_of_parts s m (hm1 ▸ hemp) ?_ h0 ?_
      · rw [← hm1]
        simpa using h1
      · intro i hi1 hi2
        exact hminv i hi1 hi2
  · exact Or.inl rfl

/-- Helper: every character scanned by isNumberGo is a digit or a dot. -/
theorem isNumberGo_chars : ∀ (l : List Char) (b : Bool),
    isNumberGo b l = true → l.all (fun c => decide (c = '.') || isDigitC c) = true := by
  intro l
  induction l with
  | nil => intro b _; rfl
  | cons c rest ih =>
    intro b h
    simp only [isNumberGo] at h
    rw [List.all_cons, Bool.and_eq_true]
    by_cases hc : c = '.'
    · rw [if_pos hc] at h
      by_cases hb : b = true
      · rw [if_pos hb] at h; exact absurd h (by simp)
      · rw [if_neg hb] at h
        exact ⟨by simp [hc], ih true h⟩
    · rw [if_neg hc] at h
      by_cases hd : isDigitC c = true
      · rw [if_pos hd] at h
        exact ⟨by simp [hd], ih b h⟩
      · rw [if_neg hd] at h
        exact absurd h (by simp)

/-- Helper: a valid number consists of digits and dots. -/
theorem number_chars (x : List Char) (h : isNumber x = true) :
    x.all (fun c => decide (c = '.') || isDigitC c) = true := by
  unfold isNumber at h
  split_ifs at h
  exact isNumberGo_chars x false h

/-- Helper: a valid variable name consists of identifier characters. -/
theorem var_chars (x : List Char) (h : checkVariableSyntax x = true) :
    x.all identChar = true := by
  unfold checkVariableSyntax at h
  split_ifs at h
  exact h

/-- Helper: a number contains no space. -/
theorem nospace_of_number (x : List Char) (h : isNumber x = true) :
    x.filter (fun c => c ≠ ' ') = x := by
  rw [List.filter_eq_self]
  intro a ha
  have := List.all_eq_true.mp (number_chars x h) a ha
  rcases Bool.or_eq_true _ _ |>.mp this with hd | hd
  · simp only [decide_eq_true_eq] at hd
    simp [hd]
  · simp only [ne_eq, decide_eq_true_eq]
    intro heq
    rw [heq] at hd
    exact absurd hd (by decide)

/-- Helper: a variable name contains no space. -/
theorem nospace_of_var (x : List Char) (h : checkVariableSyntax x = true) :
    x.filter (fun c => c ≠ ' ') = x := by
  rw [List.filter_eq_self]
  intro a ha
  have := List.all_eq_true.mp (var_chars x h) a ha
  simp only [ne_eq, decide_eq_true_eq]
  intro heq
  rw [heq] at this
  exact absurd this (by decide)

/-- Helper: a constant name contains no space. -/
theorem nospace_of_const (x : List Char) (h : constNames.contains x = true) :
    x.filter (fun c => c ≠ ' ') = x := by
  rw [List.elem_iff] at h
  fin_cases h <;> decide

/-- Helper: a function name contains no space. -/
theorem nospace_of_func (x : List Char) (h : funcNames.contains x = true) :
    x.filter (fun c => c ≠ ' ') = x := by
  rw [List.elem_iff] at h
  fin_cases h <;> decide

/-- Helper: an operator name contains no space. -/
theorem nospace_of_infixOp (x : List Char) (h : infixNames.contains x = true) :
    x.filter (fun c => c ≠ ' ') = x := by
  rw [List.elem_iff] at h
  fin_cases h <;> decide

/-- Helper: classification keeps the token text for every name the lexer can actually produce. -/
theorem mkToken_name (x : List Char)
    (hx : constNames.contains x = true ∨ funcNames.contains x = true
      ∨ infixNames.contains x = true ∨ checkVariableSyntax x = true
      ∨ x = "(".data ∨ x = ")".data ∨ x = ",".data ∨ isNumber x = true) :
    (mkToken x).name = x := by
  unfold mkToken
  split_ifs with h1 h2 h3 h4 h5 h6 h7 h8 h9
  · rfl
  · rfl
  · rfl
  · rfl
  · rfl
  · rfl
  · rfl
  · rfl
  · exact absurd h9 (by simp [isBlankB])
  · rcases hx with h | h | h | h | h | h | h | h <;> simp_all

/-- Helper: removing spaces from an all-space string leaves nothing. -/
theorem filter_spaces_nil (sp : List Char) (h : sp.all (fun c => c = ' ') = true) :
    sp.filter (fun c => c ≠ ' ') = [] := by
  rw [List.filter_eq_nil_iff]
  intro a ha
  have := List.all_eq_true.mp h a ha
  simp_all

/-- Helper: concatNames distributes over cons. -/
theorem concatNames_cons (t : Token) (l : List Token) :
    concatNames (t :: l) = t.name ++ concatNames l := by
  simp [concatNames]

/-- Helper: one reproduction step for a branch that consumes a match and emits one token. -/
theorem roundtrip_step (name rest s1 : List Char) (l : List Token)
    (hsplit : name ++ rest = s1) (hname : (mkToken name).name = name)
    (hnospace : name.filter (fun c => c ≠ ' ') = name)
    (hrec : concatNames l = rest.filter (fun c => c ≠ ' ')) :
    concatNames (mkToken name :: l) = s1.filter (fun c => c ≠ ' ') := by
  rw [concatNames_cons, hname, hrec, ← hsplit, List.filter_append, hnospace]

/-- Helper: pop reassembles its input. -/
theorem pop_cat (s : List Char) : (pop s).1 ++ (pop s).2 = s := by
  unfold pop
  split_ifs with h1 h2
  · simp [h1]
  · simp
  · exact List.take_append_drop _ _

/-- C7 counterexample: tokenize does not succeed on every input string:
on the input consisting of a letter followed by a space, the second
iteration calls consumeSpace on an all-space string, which returns None,
and unpacking it raises TypeError — the run crashes instead of
producing a token list. -/
theorem c7_tokenize_crashes_on_trailing_space :
    tokenizeFuel 9 ( "a ".data) = .err := rfl

/-- C7 (amended: whenever tokenize terminates with a token list,
concatenating the literal text of all its tokens — the re-inserted
open-bracket token standing for the open bracket consumed together with
a function name, and no multiplication tokens being present since the
expander has not run — reproduces the input with its space characters
removed; tokenize does not succeed on every input). -/
theorem c7_tokenize_roundtrip : ∀ (fuel : Nat) (s : List Char) (toks : List Token),
    tokenizeFuel fuel s = .ok toks →
    concatNames toks = s.filter (fun c => c ≠ ' ') := by
  intro fuel
  induction fuel with
  | zero => intro s toks h; exact absurd h (by simp [tokenizeFuel])
  | succ f ih =>
    intro s toks h
    simp only [tokenizeFuel] at h
    by_cases h0 : s.length = 0
    · rw [if_pos h0] at h
      simp only [TRes.ok.injEq] at h
      subst h
      rw [List.length_eq_zero.mp h0]
      rfl
    · rw [if_neg h0] at h
      rcases hsp : consumeSpace s with _ | ⟨sp, s1⟩
      · rw [hsp] at h; exact absurd h (by simp)
      · rw [hsp] at h
        dsimp only at h
        obtain ⟨hcat, hall⟩ := consumeSpace_sound s sp s1 hsp
        have hfs : s.filter (fun c => c ≠ ' ') = s1.filter (fun c => c ≠ ' ') := by
          rw [← hcat, List.filter_append, filter_spaces_nil sp hall]
          rfl
        rw [hfs]
        clear hfs hcat hall hsp h0
        by_cases h1 : s1.length = 0
        · rw [if_pos h1] at h
          simp only [TRes.ok.injEq] at h
          subst h
          rw [List.length_eq_zero.mp h1]
          rfl
        · rw [if_neg h1] at h
          by_cases hN : (consumeNumber s1).1 ≠ []
          · rw [if_pos hN] at h
            rcases hrec : tokenizeFuel f (consumeNumber s1).2 with l | _ | _
            · rw [hrec] at h
              simp only [consTR, TRes.ok.injEq, List.singleton_append] at h
              subst h
              obtain ⟨hc, hn⟩ := consumeNumber_sound s1
              rcases hn with hn | hn
              · exact absurd hn hN
              · exact roundtrip_step _ _ _ _ hc
                  (mkToken_name _ (by tauto)) (nospace_of_number _ hn) (ih _ _ hrec)
            · rw [hrec] at h; exact absurd h (by simp [consTR])
            · rw [hrec] at h; exact absurd h (by simp [consTR])
          · rw [if_neg hN] at h
            by_cases hC : (consumeConst s1).1 ≠ []
            · rw [if_pos hC] at h
              rcases hrec : tokenizeFuel f (consumeConst s1).2 with l | _ | _
              · rw [hrec] at h
                simp only [consTR, TRes.ok.injEq, List.singleton_append] at h
                subst h
                obtain ⟨hc, hm, _⟩ := consumeConstGo_sound s1 s1.length 1
                  (consumeConst s1).1 (consumeConst s1).2 rfl hC
                exact roundtrip_step _ _ _ _ hc
                  (mkToken_name _ (by tauto)) (nospace_of_const _ hm) (ih _ _ hrec)
              · rw [hrec] at h; exact absurd h (by simp [consTR])
              · rw [hrec] at h; exact absurd h (by simp [consTR])
            · rw [if_neg hC] at h
              by_cases hF : (consumeFunc s1).1 ≠ []
              · rw [if_pos hF] at h
                rcases hrec : tokenizeFuel f (consumeFunc s1).2 with l | _ | _
                · rw [hrec] at h
                  simp only [consTR, TRes.ok.injEq] at h
                  subst h
                  rcases consumeFunc_sound s1 with ⟨he, _⟩ | ⟨hm, hc⟩
                  · exact absurd he hF
                  · rw [show ([mkToken (consumeFunc s1).1, mkToken ( "(".data)] ++ l)
                          = mkToken (consumeFunc s1).1 :: mkToken ( "(".data) :: l from rfl]
                    rw [concatNames_cons, concatNames_cons,
                        mkToken_name _ (Or.inr (Or.inl hm)),
                        mkToken_name ( "(".data) (by tauto),
                        ih _ _ hrec]
                    conv_rhs => rw [← hc]
                    rw [List.filter_append, List.filter_append,
                        nospace_of_func _ hm]
                    simp
                · rw [hrec] at h; exact absurd h (by simp [consTR])
                · rw [hrec] at h; exact absurd h (by simp [consTR])
              · rw [if_neg hF] at h
                by_cases hV : (consumeVar s1).1 ≠ []
                · rw [if_pos hV] at h
                  rcases hrec : tokenizeFuel f (consumeVar s1).2 with l | _ | _
                  · rw [hrec] at h
                    simp only [consTR, TRes.ok.injEq, List.singleton_append] at h
                    subst h
                    rcases consumeVar_sound s1 with he | ⟨hc, hm⟩
                    · exact absurd he hV
                    · exact roundtrip_step _ _ _ _ hc
                        (mkToken_name _ (by tauto)) (nospace_of_var _ hm) (ih _ _ hrec)
                  · rw [hrec] at h; exact absurd h (by simp [consTR])
                  · rw [hrec] at h; exact absurd h (by simp [consTR])
                · rw [if_neg hV] at h
                  by_cases hI : (consumeInfixOp s1).1 ≠ []
                  · rw [if_pos hI] at h
                    rcases hrec : tokenizeFuel f (consumeInfixOp s1).2 with l | _ | _
                    · rw [hrec] at h
                      simp only [consTR, TRes.ok.injEq, List.singleton_append] at h
                      subst h
                      obtain ⟨hc, hm⟩ := consumeInfixOp_sound s1
                      rcases hm with hm | hm
                      · exact absurd hm hI
                      · exact roundtrip_step _ _ _ _ hc
                          (mkToken_name _ (by tauto)) (nospace_of_infixOp _ hm) (ih _ _ hrec)
                    · rw [hrec] at h; exact absurd h (by simp [consTR])
                    · rw [hrec] at h; exact absurd h (by simp [consTR])
                  · rw [if_neg hI] at h
                    by_cases hP1 : (pop s1).1 = "(".data
                    · rw [if_pos hP1] at h
                      rcases hrec : tokenizeFuel f (pop s1).2 with l | _ | _
                      · rw [hrec] at h
                        simp only [consTR, TRes.ok.injEq, List.singleton_append] at h
                        subst h
                        refine roundtrip_step _ _ _ _ (pop_cat s1) ?_ ?_ (ih _ _ hrec)
                        · rw [hP1]; exact mkToken_name _ (by tauto)
                        · rw [hP1]; decide
                      · rw [hrec] at h; exact absurd h (by simp [consTR])
                      · rw [hrec] at h; exact absurd h (by simp [consTR])
                    · rw [if_neg hP1] at h
                      by_cases hP2 : (pop s1).1 = ")".data
                      · rw [if_pos hP2] at h
                        rcases hrec : tokenizeFuel f (pop s1).2 with l | _ | _
                        · rw [hrec] at h
                          simp only [consTR, TRes.ok.injEq, List.singleton_append] at h
                          subst h
                          refine roundtrip_step _ _ _ _ (pop_cat s1) ?_ ?_ (ih _ _ hrec)
                          · rw [hP2]; exact mkToken_name _ (by tauto)
                          · rw [hP2]; decide
                        · rw [hrec] at h; exact absurd h (by simp [consTR])
                        · rw [hrec] at h; exact absurd h (by simp [consTR])
                      · rw [if_neg hP2] at h
                        by_cases hP3 : (pop s1).1 = ",".data
                        · rw [if_pos hP3] at h
                          rcases hrec : tokenizeFuel f (pop s1).2 with l | _ | _
                          · rw [hrec] at h
                            simp only [consTR, TRes.ok.injEq, List.singleton_append] at h
                            subst h
                            refine roundtrip_step _ _ _ _ (pop_cat s1) ?_ ?_ (ih _ _ hrec)
                            · rw [hP3]; exact mkToken_name _ (by tauto)
                            · rw [hP3]; decide
                          · rw [hrec] at h; exact absurd h (by simp [consTR])
                          · rw [hrec] at h; exact absurd h (by simp [consTR])
                        · rw [if_neg hP3] at h
                          exact ih _ _ h

/-- Witness for C7 at the concrete input 2 x. -/
theorem c7_tokenize_roundtrip_witness :
    concatNames [mkToken ( "2".data), mkToken ( "x".data)]
      = ( "2 x".data).filter (fun c => c ≠ ' ') :=
  c7_tokenize_roundtrip 9 ( "2 x".data) [mkToken ( "2".data), mkToken ( "x".data)] rfl

end QP
namespace QP

theorem stackAlt_append_op : ∀ (l : List Node), stackAlt l = true →
    ∀ o : Node, o.type = "INFIX" → altLD (l ++ [o]) = true := by
  intro l
  induction l using stackAlt.induct with
  | case1 => intro h; simp [stackAlt] at h
  | case2 x =>
    intro h o ho
    simp [stackAlt] at h
    simp [altLD, h, ho]
  | case3 x o2 rest ih =>
    intro h o ho
    simp only [stackAlt, Bool.and_eq_true, decide_eq_true_eq] at h
    obtain ⟨⟨h1, h2⟩, h3⟩ := h
    have hind := ih h3 o ho
    rcases rest with _ | ⟨y, rest2⟩
    · simp [stackAlt] at h3
    · show altLD (x :: o2 :: ((y :: rest2) ++ [o])) = true
      simp only [altLD, Bool.and_eq_true, decide_eq_true_eq]
      exact ⟨⟨h1, h2⟩, hind⟩

theorem stackAltO_append_op (l : List Node) (h : stackAltO l = true)
    (o : Node) (ho : o.type = "INFIX") : altOD (l ++ [o]) = true := by
  rcases l with _ | ⟨o2, rest⟩
  · simp [stackAltO] at h
  · simp only [stackAltO, Bool.and_eq_true, decide_eq_true_eq] at h
    obtain ⟨h1, h2⟩ := h
    have hind := stackAlt_append_op rest h2 o ho
    rcases rest with _ | ⟨y, rest2⟩
    · simp [stackAlt] at h2
    · show altOD (o2 :: y :: (rest2 ++ [o])) = true
      simp only [altOD, Bool.and_eq_true, decide_eq_true_eq]
      exact ⟨h1, by simpa using hind⟩

theorem altLD_append_alt : ∀ (a : List Node), altLD a = true →
    ∀ b : List Node, stackAlt b = true → stackAlt (a ++ b) = true := by
  intro a
  induction a using altLD.induct with
  | case1 => intro h; simp [altLD] at h
  | case2 => intro h; simp [altLD] at h
  | case3 x o =>
    intro h b hb
    simp only [altLD, Bool.and_eq_true, decide_eq_true_eq] at h
    rcases b with _ | ⟨y, rest⟩
    · simp [stackAlt] at hb
    · show stackAlt (x :: o :: (y :: rest)) = true
      simp only [stackAlt, Bool.and_eq_true, decide_eq_true_eq]
      exact ⟨⟨h.1, h.2⟩, hb⟩
  | case4 x o rest hne ih =>
    intro h b hb
    simp only [altLD, Bool.and_eq_true, decide_eq_true_eq] at h
    obtain ⟨⟨h1, h2⟩, h3⟩ := h
    have hind := ih h3 b hb
    show stackAlt (x :: o :: (rest ++ b)) = true
    simp only [stackAlt]
    rcases hr : rest ++ b with _ | ⟨z, w⟩
    · rcases rest with _ | ⟨y, rest2⟩
      · simp [altLD] at h3
      · simp at hr
    · rw [← hr]
      simp only [Bool.and_eq_true, decide_eq_true_eq]
      exact ⟨⟨h1, h2⟩, hind⟩

theorem altOD_append_alt (a : List Node) (h : altOD a = true)
    (b : List Node) (hb : stackAlt b = true) : stackAltO (a ++ b) = true := by
  rcases a with _ | ⟨o, rest⟩
  · simp [altOD] at h
  · rcases rest with _ | ⟨y, rest2⟩
    · simp only [altOD, decide_eq_true_eq] at h
      show stackAltO (o :: b) = true
      simp only [stackAltO, Bool.and_eq_true, decide_eq_true_eq]
      exact ⟨h, hb⟩
    · simp only [altOD, Bool.and_eq_true, decide_eq_true_eq] at h
      show stackAltO (o :: ((y :: rest2) ++ b)) = true
      simp only [stackAltO, Bool.and_eq_true, decide_eq_true_eq]
      exact ⟨h.1, altLD_append_alt _ h.2 b hb⟩

theorem stackAlt_cons_cons (x : Node) (hx : operandTypes.contains x.type = true)
    (b : List Node) (hb : stackAltO b = true) : stackAlt (x :: b) = true := by
  rcases b with _ | ⟨o, rest⟩
  · simp [stackAltO] at hb
  · simp only [stackAltO, Bool.and_eq_true, decide_eq_true_eq] at hb
    rcases rest with _ | ⟨y, rest2⟩
    · simp [stackAlt] at hb
    · show stackAlt (x :: o :: (y :: rest2)) = true
      simp only [stackAlt, Bool.and_eq_true, decide_eq_true_eq]
      exact ⟨⟨hx, hb.1⟩, hb.2⟩

theorem altLD_append_single (a : List Node) (h : altLD a = true)
    (x : Node) (hx : operandTypes.contains x.type = true) :
    stackAlt (a ++ [x]) = true :=
  altLD_append_alt a h [x] (by simp [stackAlt]; exact List.elem_iff.mp hx)

theorem altOD_append_single (a : List Node) (h : altOD a = true)
    (x : Node) (hx : operandTypes.contains x.type = true) :
    stackAltO (a ++ [x]) = true :=
  altOD_append_alt a h [x] (by simp [stackAlt]; exact List.elem_iff.mp hx)

end QP
namespace QP

theorem nodeGetD (u : List Node) (j : Nat) (hj : j < u.length) :
    u.getD j defaultNode = u[j] := by
  rw [List.getD_eq_getElem?_getD, List.getElem?_eq_getElem hj]
  rfl

theorem nodeGetD_none (u : List Node) (j : Nat) (hj : u.length ≤ j) :
    u.getD j defaultNode = defaultNode := by
  rw [List.getD_eq_getElem?_getD, List.getElem?_eq_none hj]
  rfl

theorem operand_ne_infixOp (t : String) (h : operandTypes.contains t = true) :
    t ≠ "INFIX" := by
  rw [List.elem_iff] at h
  fin_cases h <;> decide

theorem stackAlt_parity : ∀ (u : List Node), stackAlt u = true →
    ∀ k, (hk : k < u.length) →
      (k % 2 = 0 → operandTypes.contains u[k].type = true)
      ∧ (k % 2 = 1 → u[k].type = "INFIX") := by
  intro u
  induction u using stackAlt.induct with
  | case1 => intro h; simp [stackAlt] at h
  | case2 x =>
    intro h k hk
    simp [stackAlt] at h
    simp at hk
    subst hk
    constructor
    · intro _; simpa using h
    · intro hodd; omega
  | case3 x o rest ih =>
    intro h k hk
    simp only [stackAlt, Bool.and_eq_true, decide_eq_true_eq] at h
    obtain ⟨⟨h1, h2⟩, h3⟩ := h
    match k with
    | 0 => exact ⟨fun _ => h1, fun hc => by omega⟩
    | 1 => exact ⟨fun hc => by omega, fun _ => h2⟩
    | (m + 2) =>
      have hm : m < rest.length := by simpa using hk
      have := ih h3 m hm
      constructor
      · intro he
        have : m % 2 = 0 := by omega
        simpa using (ih h3 m hm).1 this
      · intro ho
        have : m % 2 = 1 := by omega
        simpa using (ih h3 m hm).2 this

theorem stackAlt_len_odd : ∀ (u : List Node), stackAlt u = true → u.length % 2 = 1 := by
  intro u
  induction u using stackAlt.induct with
  | case1 => intro h; simp [stackAlt] at h
  | case2 x => intro _; rfl
  | case3 x o rest ih =>
    intro h
    simp only [stackAlt, Bool.and_eq_true] at h
    have := ih h.2
    simp only [List.length_cons]
    omega

theorem isMaxAt_operand (u : List Node) (p : Int) (j : Nat)
    (h : ∀ hj : j < u.length, operandTypes.contains (u.get ⟨j, hj⟩).type = true) :
    isMaxAt u p j = false := by
  unfold isMaxAt
  by_cases hj : j < u.length
  · rw [nodeGetD u j hj]
    simp only [decide_eq_false_iff_not, not_and]
    intro ht
    exact absurd ht (operand_ne_infixOp _ (h hj))
  · rw [nodeGetD_none u j (by omega)]
    simp [defaultNode, Node.type]

theorem isTopF_odd (u : List Node) (p : Int) (hw : stackAlt u = true)
    (k : Nat) (hk : k < u.length) (hodd : k % 2 = 1) :
    isTopF u p k = decide (u[k].priority = p) := by
  have hpar := stackAlt_parity u hw
  have hlen := stackAlt_len_odd u hw
  have hself : isMaxAt u p k = decide (u[k].priority = p) := by
    unfold isMaxAt
    rw [nodeGetD u k hk]
    simp [(hpar k hk).2 hodd]
  have hprev : isMaxAt u p (k - 1) = false := by
    apply isMaxAt_operand
    intro hlt
    exact (hpar (k - 1) hlt).1 (by omega)
  have hnext : isMaxAt u p (k + 1) = false := by
    apply isMaxAt_operand
    intro hlt
    exact (hpar (k + 1) hlt).1 (by omega)
  have hwrap : decide (k + 1 = u.length) = false := by
    simp only [decide_eq_false_iff_not]
    omega
  unfold isTopF
  rw [hself, hprev, hnext, hwrap]
  simp

theorem isTopF_even (u : List Node) (p : Int) (hw : stackAlt u = true)
    (k : Nat) (hk : k < u.length) (heven : k % 2 = 0) :
    isTopF u p k
      = ((decide (1 ≤ k) && isMaxAt u p (k - 1)) || isMaxAt u p (k + 1)) := by
  have hpar := stackAlt_parity u hw
  have hself : isMaxAt u p k = false := by
    apply isMaxAt_operand
    intro hlt
    exact (hpar k hlt).1 heven
  have hzero : isMaxAt u p 0 = false := by
    apply isMaxAt_operand
    intro hlt
    exact (hpar 0 hlt).1 (by omega)
  unfold isTopF
  rw [hself, hzero]
  simp

end QP
namespace QP


theorem getPriorityRange_eq (l : List Node) :
    getPriorityRange l = l.foldl rangeStep ((100 : Int), (-1 : Int)) := rfl

theorem rangeFold_mono : ∀ (u : List Node) (a : Int × Int),
    (u.foldl rangeStep a).1 ≤ a.1 ∧ a.2 ≤ (u.foldl rangeStep a).2 := by
  intro u
  induction u with
  | nil => intro a; exact ⟨le_refl _, le_refl _⟩
  | cons x rest ih =>
    intro a
    rw [List.foldl_cons]
    have := ih (rangeStep a x)
    unfold rangeStep at this ⊢
    by_cases hx : x.type = "INFIX"
    · rw [if_pos hx] at this ⊢
      constructor
      · refine le_trans this.1 ?_
        dsimp only
        split_ifs with hlt
        · omega
        · exact le_refl _
      · refine le_trans ?_ this.2
        dsimp only
        split_ifs with hlt
        · omega
        · exact le_refl _
    · rw [if_neg hx] at this ⊢
      exact this

theorem rangeFold_bound : ∀ (u : List Node) (a : Int × Int) (x : Node),
    x ∈ u → x.type = "INFIX" →
    (u.foldl rangeStep a).1 ≤ x.priority ∧ x.priority ≤ (u.foldl rangeStep a).2 := by
  intro u
  induction u with
  | nil => intro a x hx; simp at hx
  | cons y rest ih =>
    intro a x hx hinf
    rw [List.foldl_cons]
    rcases List.mem_cons.mp hx with rfl | hmem
    · have hm := rangeFold_mono rest (rangeStep a x)
      constructor
      · refine le_trans hm.1 ?_
        unfold rangeStep
        rw [if_pos hinf]
        dsimp only
        split_ifs with hlt
        · exact le_refl _
        · omega
      · refine le_trans ?_ hm.2
        unfold rangeStep
        rw [if_pos hinf]
        dsimp only
        split_ifs with hlt
        · exact le_refl _
        · omega
    · exact ih (rangeStep a y) x hmem hinf

theorem rangeFold_mem : ∀ (u : List Node) (a : Int × Int),
    ((u.foldl rangeStep a).1 = a.1 ∨ (u.foldl rangeStep a).1 ∈ prios u)
    ∧ ((u.foldl rangeStep a).2 = a.2 ∨ (u.foldl rangeStep a).2 ∈ prios u) := by
  intro u
  induction u with
  | nil => intro a; exact ⟨Or.inl rfl, Or.inl rfl⟩
  | cons y rest ih =>
    intro a
    rw [List.foldl_cons]
    have hprios : prios (y :: rest)
        = (if y.type = "INFIX" then [y.priority] else []) ++ prios rest := by
      unfold prios
      by_cases hy : y.type = "INFIX"
      · simp [hy, List.filter_cons]
      · simp [hy, List.filter_cons]
    have := ih (rangeStep a y)
    constructor
    · rcases this.1 with h | h
      · rw [h]
        unfold rangeStep
        by_cases hy : y.type = "INFIX"
        · rw [if_pos hy]
          dsimp only
          split_ifs with hlt
          · right; rw [hprios]; simp [hy]
          · left; rfl
        · rw [if_neg hy]; left; rfl
      · right; rw [hprios]; exact List.mem_append_right _ h
    · rcases this.2 with h | h
      · rw [h]
        unfold rangeStep
        by_cases hy : y.type = "INFIX"
        · rw [if_pos hy]
          dsimp only
          split_ifs with hlt
          · right; rw [hprios]; simp [hy]
          · left; rfl
        · rw [if_neg hy]; left; rfl
      · right; rw [hprios]; exact List.mem_append_right _ h

theorem priority_bounds (nd : Node) : 0 ≤ nd.priority ∧ nd.priority ≤ 3 := by
  cases nd with
  | mk fn args => constructor <;> simp [Node.priority]
  | tk t =>
    show 0 ≤ opPriority t.name ∧ opPriority t.name ≤ 3
    unfold opPriority
    split_ifs <;> norm_num

end QP
namespace QP

theorem splitGo_retag (tmp : List Node) (f0 : Bool) (ps : List (Node × Bool)) :
    ps ≠ [] → retag (splitGo tmp f0 ps) = tmp.map (fun nd => (nd, f0)) ++ ps := by
  induction tmp, f0, ps using splitGo.induct with
  | case1 => intro hne; exact absurd rfl hne
  | case2 tmp f0 x f hf =>
    intro _
    simp only [splitGo, if_pos hf]
    simp [retag]
  | case3 tmp f0 x f hf =>
    intro _
    rw [not_not] at hf
    simp only [splitGo, if_neg (by rw [hf]; simp : ¬ f0 ≠ f)]
    subst hf
    simp [retag]
  | case4 tmp f0 x f y rest hf ih =>
    intro _
    simp only [splitGo, if_pos hf]
    rw [retag]
    simp only [List.map_cons, List.flatten_cons]
    have := ih (by simp)
    rw [retag] at this
    rw [this]
    simp
  | case5 tmp f0 x f y rest hf ih =>
    intro _
    rw [not_not] at hf
    simp only [splitGo, if_neg (by rw [hf]; simp : ¬ f0 ≠ f)]
    have := ih (by simp)
    rw [this]
    subst hf
    simp

theorem splitChunks_retag (ps : List (Node × Bool)) (p0 p1 : Node × Bool)
    (rest : List (Node × Bool)) (hps : ps = p0 :: p1 :: rest) :
    retag (splitChunks ps) = ps := by
  subst hps
  show retag (splitGo [p0.1] p0.2 (p1 :: rest)) = p0 :: p1 :: rest
  rw [splitGo_retag _ _ _ (by simp)]
  simp

theorem retag_mem (cs : List (List Node × Bool)) (nd : Node) (b : Bool) :
    (nd, b) ∈ retag cs ↔ ∃ c ∈ cs, nd ∈ c.1 ∧ c.2 = b := by
  unfold retag
  rw [List.mem_flatten]
  constructor
  · rintro ⟨l, hl, hnd⟩
    rw [List.mem_map] at hl
    obtain ⟨c, hc, rfl⟩ := hl
    rw [List.mem_map] at hnd
    obtain ⟨nd2, hnd2, heq⟩ := hnd
    injection heq with e1 e2
    exact ⟨c, hc, e1 ▸ hnd2, e2⟩
  · rintro ⟨c, hc, hnd, hb⟩
    refine ⟨c.1.map (fun nd => (nd, c.2)), List.mem_map_of_mem _ hc, ?_⟩
    rw [List.mem_map]
    exact ⟨nd, hnd, by rw [hb]⟩
end QP
namespace QP

theorem prios_append (a b : List Node) : prios (a ++ b) = prios a ++ prios b := by
  unfold prios
  rw [List.filter_append, List.map_append]

theorem prios_macro_cons (fn : List Char) (args : List (List Node)) (rest : List Node) :
    prios (Node.mk fn args :: rest) = prios rest := by
  unfold prios
  rw [List.filter_cons]
  simp [Node.type]

theorem splice_prios (cs : List (List Node × Bool)) :
    prios (spliceChunks cs)
      = (cs.map (fun c => if c.2 then ([] : List Int) else prios c.1)).flatten := by
  induction cs with
  | nil => rfl
  | cons c rest ih =>
    rcases c with ⟨cl, cb⟩
    cases cb
    · show prios (cl ++ spliceChunks rest) = _
      rw [prios_append, ih]
      simp
    · show prios (Node.mk ( "id".data) [cl] :: spliceChunks rest) = _
      rw [prios_macro_cons, ih]
      simp

theorem pairs_mem_iff (u : List Node) (p : Int) (nd : Node) (b : Bool) :
    (nd, b) ∈ u.enum.map (fun e => (e.2, isTopF u p e.1))
      ↔ ∃ k, ∃ hk : k < u.length, u[k] = nd ∧ isTopF u p k = b := by
  rw [List.mem_map]
  constructor
  · rintro ⟨⟨k, x⟩, hmem, heq⟩
    injection heq with e1 e2
    rw [List.mk_mem_enum_iff_getElem?] at hmem
    have hk : k < u.length := (List.getElem?_eq_some.mp hmem).1
    refine ⟨k, hk, ?_, e2⟩
    have h2 := (List.getElem?_eq_some.mp hmem).2
    rw [h2]
    exact e1
  · rintro ⟨k, hk, rfl, rfl⟩
    refine ⟨(k, u[k]), ?_, rfl⟩
    rw [List.mk_mem_enum_iff_getElem?]
    exact List.getElem?_eq_getElem hk

end QP
namespace QP

theorem pairsFrom_nil (u : List Node) (p : Int) (base : Nat) :
    pairsFrom u p base [] = [] := by
  simp [pairsFrom]

theorem pairsFrom_cons (u : List Node) (p : Int) (base : Nat) (x : Node) (w : List Node) :
    pairsFrom u p base (x :: w)
      = (x, isTopF u p base) :: pairsFrom u p (base + 1) w := by
  unfold pairsFrom
  rw [List.length_cons, List.range_succ_eq_map, List.map_cons, List.map_map]
  congr 1
  apply List.map_congr_left
  intro j _
  simp only [Function.comp_apply, List.getD_cons_succ]
  congr 2
  omega

theorem pairsFrom_zero (u : List Node) (p : Int) :
    pairsFrom u p 0 u = u.enum.map (fun e => (e.2, isTopF u p e.1)) := by
  apply List.ext_getElem
  · simp [pairsFrom]
  · intro k h1 h2
    unfold pairsFrom at h1
    simp only [List.length_map, List.length_range] at h1
    unfold pairsFrom
    simp only [List.getElem_map, List.getElem_range, List.getElem_enum]
    rw [nodeGetD u k h1]
    simp

theorem isMaxAt_oob (u : List Node) (p : Int) (j : Nat) (hj : u.length ≤ j) :
    isMaxAt u p j = false := by
  unfold isMaxAt
  rw [nodeGetD_none u j hj]
  simp [defaultNode, Node.type]

theorem fca_bridge (u : List Node) (p : Int) (hw : stackAlt u = true) :
    ∀ (m : Nat) (v : List Node) (base : Nat), v.length = m →
    base % 2 = 0 → base + v.length = u.length → v ≠ [] →
    (∀ j, j < v.length → v.getD j defaultNode = u.getD (base + j) defaultNode) →
    FCA (decide (1 ≤ base) && isMaxAt u p (base - 1)) (pairsFrom u p base v) := by
  have hpar := stackAlt_parity u hw
  have hodd := stackAlt_len_odd u hw
  intro m
  induction m using Nat.strong_induction_on with
  | _ m ih =>
    intro v base hm heven hlen hne hv
    match v, hne with
    | [x], _ =>
      rw [pairsFrom_cons, pairsFrom_nil]
      have hblt : base < u.length := by simp at hlen; omega
      have hx : x = u[base] := by
        have h0 := hv 0 (by simp)
        simp only [List.getD_cons_zero, Nat.add_zero] at h0
        rw [h0, nodeGetD u base hblt]
      have hflag : isTopF u p base
          = (decide (1 ≤ base) && isMaxAt u p (base - 1)) := by
        rw [isTopF_even u p hw base hblt heven,
          isMaxAt_oob u p (base + 1) (by simp at hlen; omega)]
        simp
      rw [hflag]
      exact FCA.last x _ (by rw [hx]; exact (hpar base hblt).1 heven)
    | x :: o :: w, _ =>
      have hwlen : w ≠ [] := by
        intro hwnil
        subst hwnil
        simp at hlen
        omega
      have hblt : base < u.length := by simp at hlen; omega
      have hb1 : base + 1 < u.length := by simp at hlen; omega
      have hx : x = u[base] := by
        have h0 := hv 0 (by simp)
        simp only [List.getD_cons_zero, Nat.add_zero] at h0
        rw [h0, nodeGetD u base hblt]
      have ho : o = u[base + 1] := by
        have h1 := hv 1 (by simp)
        simp only [List.getD_cons_succ, List.getD_cons_zero] at h1
        rw [h1, nodeGetD u (base + 1) hb1]
      have hoinf : o.type = "INFIX" := by
        rw [ho]
        exact (hpar (base + 1) hb1).2 (by omega)
      have hfo : isTopF u p (base + 1) = isMaxAt u p (base + 1) := by
        rw [isTopF_odd u p hw (base + 1) hb1 (by omega)]
        unfold isMaxAt
        rw [nodeGetD u (base + 1) hb1]
        rw [← ho]
        simp [hoinf]
      have hfb : isTopF u p base
          = ((decide (1 ≤ base) && isMaxAt u p (base - 1)) || isMaxAt u p (base + 1)) := by
        exact isTopF_even u p hw base hblt heven
      have hrec : FCA (isMaxAt u p (base + 1)) (pairsFrom u p (base + 2) w) := by
        have := ih w.length (by simp at hm ⊢; omega) w (base + 2) rfl
          (by omega) (by simp at hlen ⊢; omega) hwlen
          (by
            intro j hj
            have := hv (j + 2) (by simp; omega)
            simp only [List.getD_cons_succ] at this
            rw [this]
            congr 1
            omega)
        have he : (decide (1 ≤ base + 2) && isMaxAt u p (base + 2 - 1))
            = isMaxAt u p (base + 1) := by
          simp
        rw [he] at this
        exact this
      rw [pairsFrom_cons, pairsFrom_cons, hfb, hfo]
      exact FCA.step x o _ _ _ (by rw [hx]; exact (hpar base hblt).1 heven) hoinf hrec

end QP
namespace QP

theorem fca_ne (f : Bool) (ps : List (Node × Bool)) (h : FCA f ps) : ps ≠ [] := by
  cases h <;> simp

theorem stackAlt_macro_single (fn : List Char) (args : List (List Node)) :
    stackAlt [Node.mk fn args] = true := by
  simp [stackAlt, operandTypes, Node.type]

theorem splitGo_wf : ∀ (m : Nat) (ps : List (Node × Bool)), ps.length = m →
    ((∀ (fL : Bool), FCA fL ps →
      ∀ (tmp : List Node) (led : Bool),
      (led = true → altLD tmp = true) →
      (led = false → altOD tmp = true) →
      (fL = true → led = true) →
      (led = true → stackAlt (spliceChunks (splitGo tmp fL ps)) = true)
        ∧ (led = false → stackAltO (spliceChunks (splitGo tmp fL ps)) = true))
    ∧ (∀ (o : Node) (fo : Bool) (ps2 : List (Node × Bool)), ps = (o, fo) :: ps2 →
      o.type = "INFIX" → FCA fo ps2 →
      ∀ (tmp : List Node) (prevFlag led : Bool),
      (led = true → stackAlt tmp = true) →
      (led = false → stackAltO tmp = true) →
      (fo = true → prevFlag = true) →
      (prevFlag = true → led = true) →
      (led = true → stackAlt (spliceChunks (splitGo tmp prevFlag ((o, fo) :: ps2))) = true)
        ∧ (led = false →
            stackAltO (spliceChunks (splitGo tmp prevFlag ((o, fo) :: ps2))) = true))) := by
  intro m
  induction m using Nat.strong_induction_on with
  | _ m ih =>
    intro ps hm
    constructor
    · intro fL hfca tmp led hLD hOD hfl
      cases hfca with
      | last x f2 hx =>
        have hsg : splitGo tmp fL [(x, fL)] = [(tmp ++ [x], fL)] := by
          simp [splitGo]
        rw [hsg]
        cases fL with
        | true =>
          have hled := hfl rfl
          subst hled
          refine ⟨fun _ => ?_, fun h => by simp at h⟩
          show stackAlt (Node.mk ( "id".data) [tmp ++ [x]] :: spliceChunks []) = true
          exact stackAlt_macro_single _ _
        | false =>
          have hsp : spliceChunks [(tmp ++ [x], false)] = tmp ++ [x] := by
            simp [spliceChunks]
          rw [hsp]
          exact ⟨fun h => altLD_append_single tmp (hLD h) x hx,
            fun h => altOD_append_single tmp (hOD h) x hx⟩
      | step x o f2 fo rest hx ho hrest =>
        have hih := (ih (rest.length + 1) (by simp at hm; omega)
          ((o, fo) :: rest) (by simp)).2 o fo rest rfl ho hrest
        cases fL with
        | true =>
          have hled := hfl rfl
          subst hled
          have hsg : splitGo tmp true ((x, true || fo) :: (o, fo) :: rest)
              = splitGo (tmp ++ [x]) true ((o, fo) :: rest) := by
            simp [splitGo]
          rw [hsg]
          exact hih (tmp ++ [x]) true true
            (fun _ => altLD_append_single tmp (hLD rfl) x hx)
            (fun h => by simp at h) (fun _ => rfl) (fun _ => rfl)
        | false =>
          cases fo with
          | false =>
            have hsg : splitGo tmp false ((x, false || false) :: (o, false) :: rest)
                = splitGo (tmp ++ [x]) false ((o, false) :: rest) := by
              simp [splitGo]
            rw [hsg]
            exact hih (tmp ++ [x]) false led
              (fun h => altLD_append_single tmp (hLD h) x hx)
              (fun h => altOD_append_single tmp (hOD h) x hx)
              (fun h => by simp at h) (fun h => by simp at h)
          | true =>
            have hsg : splitGo tmp false ((x, false || true) :: (o, true) :: rest)
                = (tmp, false) :: splitGo [x] true ((o, true) :: rest) := by
              simp [splitGo]
            rw [hsg]
            have hX := (hih [x] true true
              (fun _ => by simp [stackAlt]; exact List.elem_iff.mp hx)
              (fun h => by simp at h) (fun _ => rfl) (fun _ => rfl)).1 rfl
            have hsp : spliceChunks ((tmp, false) :: splitGo [x] true ((o, true) :: rest))
                = tmp ++ spliceChunks (splitGo [x] true ((o, true) :: rest)) := rfl
            rw [hsp]
            exact ⟨fun h => altLD_append_alt tmp (hLD h) _ hX,
              fun h => altOD_append_alt tmp (hOD h) _ hX⟩
    · intro o fo ps2 hps hoinf hfca2 tmp prevFlag led hS hSO hfp hpl
      subst hps
      have hne := fca_ne fo ps2 hfca2
      cases ps2 with
      | nil => exact absurd rfl hne
      | cons y rest =>
        have hihA := (ih (rest.length + 1) (by simp at hm; omega)
          (y :: rest) (by simp)).1
        cases prevFlag with
        | true =>
          have hled := hpl rfl
          subst hled
          cases fo with
          | true =>
            have hsg : splitGo tmp true ((o, true) :: y :: rest)
                = splitGo (tmp ++ [o]) true (y :: rest) := by
              simp [splitGo]
            rw [hsg]
            exact hihA true hfca2 (tmp ++ [o]) true
              (fun _ => stackAlt_append_op tmp (hS rfl) o hoinf)
              (fun h => by simp at h) (fun _ => rfl)
          | false =>
            have hsg : splitGo tmp true ((o, false) :: y :: rest)
                = (tmp, true) :: splitGo [o] false (y :: rest) := by
              simp [splitGo]
            rw [hsg]
            have hX := (hihA false hfca2 [o] false
              (fun h => by simp at h)
              (fun _ => by simp [altOD, hoinf])
              (fun h => by simp at h)).2 rfl
            have hsp : spliceChunks ((tmp, true) :: splitGo [o] false (y :: rest))
                = Node.mk ( "id".data) [tmp]
                    :: spliceChunks (splitGo [o] false (y :: rest)) := rfl
            rw [hsp]
            refine ⟨fun _ => ?_, fun h => by simp at h⟩
            exact stackAlt_cons_cons _ (by simp [operandTypes, Node.type]) _ hX
        | false =>
          cases fo with
          | true => exact absurd (hfp rfl) (by simp)
          | false =>
            have hsg : splitGo tmp false ((o, false) :: y :: rest)
                = splitGo (tmp ++ [o]) false (y :: rest) := by
              simp [splitGo]
            rw [hsg]
            exact hihA false hfca2 (tmp ++ [o]) led
              (fun h => stackAlt_append_op tmp (hS h) o hoinf)
              (fun h => stackAltO_append_op tmp (hSO h) o hoinf)
              (fun h => by simp at h)

end QP
namespace QP

theorem mem_prios_iff (l : List Node) (q : Int) :
    q ∈ prios l ↔ ∃ x ∈ l, x.type = "INFIX" ∧ x.priority = q := by
  simp only [prios, List.mem_map, List.mem_filter, decide_eq_true_eq]
  constructor
  · rintro ⟨x, ⟨hm, ht⟩, hp⟩
    exact ⟨x, hm, ht, hp⟩
  · rintro ⟨x, hm, ht, hp⟩
    exact ⟨x, ⟨hm, ht⟩, hp⟩

theorem prios_length (l : List Node) : (prios l).length = numInfix l := by
  simp [prios, numInfix]

theorem infix_flag (u : List Node) (p : Int) (hw : stackAlt u = true)
    (k : Nat) (hk : k < u.length) (ht : u[k].type = "INFIX") :
    isTopF u p k = decide (u[k].priority = p) := by
  have hpar := stackAlt_parity u hw
  have hodd : k % 2 = 1 := by
    rcases Nat.mod_two_eq_zero_or_one k with h | h
    · exact absurd ht (by
        have := (hpar k hk).1 h
        exact operand_ne_infixOp _ this)
    · exact h
  exact isTopF_odd u p hw k hk hodd

theorem range_bound (s : List Node) (q : Int) (hq : q ∈ prios s) :
    (getPriorityRange s).1 ≤ q ∧ q ≤ (getPriorityRange s).2 := by
  obtain ⟨x, hm, ht, hp⟩ := (mem_prios_iff s q).mp hq
  rw [getPriorityRange_eq]
  subst hp
  exact rangeFold_bound s _ x hm ht

theorem range_mem_max (s : List Node) (hni : 1 ≤ numInfix s) :
    (getPriorityRange s).2 ∈ prios s := by
  have hne : prios s ≠ [] := by
    intro h
    rw [← prios_length s, h] at hni
    simp at hni
  obtain ⟨q, hq⟩ := List.exists_mem_of_ne_nil _ hne
  rcases (rangeFold_mem s ((100 : Int), (-1 : Int))).2 with h | h
  · exfalso
    have hb := (range_bound s q hq).2
    rw [getPriorityRange_eq, h] at hb
    obtain ⟨x, hm, ht, hp⟩ := (mem_prios_iff s q).mp hq
    have := (priority_bounds x).1
    omega
  · rw [getPriorityRange_eq]
    exact h

theorem range_mem_min (s : List Node) (hni : 1 ≤ numInfix s) :
    (getPriorityRange s).1 ∈ prios s := by
  have hne : prios s ≠ [] := by
    intro h
    rw [← prios_length s, h] at hni
    simp at hni
  obtain ⟨q, hq⟩ := List.exists_mem_of_ne_nil _ hne
  rcases (rangeFold_mem s ((100 : Int), (-1 : Int))).1 with h | h
  · exfalso
    have hb := (range_bound s q hq).1
    rw [getPriorityRange_eq, h] at hb
    obtain ⟨x, hm, ht, hp⟩ := (mem_prios_iff s q).mp hq
    have := (priority_bounds x).2
    omega
  · rw [getPriorityRange_eq]
    exact h

theorem distinct_le_four (l : List Node) : distinctPrioCount l ≤ 4 := by
  unfold distinctPrioCount
  rw [← List.card_toFinset]
  have hsub : (prios l).toFinset ⊆ Finset.Icc (0 : Int) 3 := by
    intro q hq
    rw [List.mem_toFinset] at hq
    obtain ⟨x, _, _, hp⟩ := (mem_prios_iff l q).mp hq
    have := priority_bounds x
    rw [Finset.mem_Icc]
    omega
  have := Finset.card_le_card hsub
  rw [Int.card_Icc] at this
  simpa using this

theorem distinct_pos (l : List Node) (hni : 1 ≤ numInfix l) :
    1 ≤ distinctPrioCount l := by
  unfold distinctPrioCount
  have hne : prios l ≠ [] := by
    intro h
    rw [← prios_length l, h] at hni
    simp at hni
  rcases hd : (prios l).dedup with _ | ⟨a, b⟩
  · exact absurd ((List.dedup_eq_nil _).mp hd) hne
  · simp

theorem samePrio_of_le_one (l : List Node) (hni : numInfix l ≤ 1) : samePrio l := by
  intro x hx y hy htx hty
  have hxm : x ∈ l.filter (fun e => e.type = "INFIX") :=
    List.mem_filter.mpr ⟨hx, by simp [htx]⟩
  have hym : y ∈ l.filter (fun e => e.type = "INFIX") :=
    List.mem_filter.mpr ⟨hy, by simp [hty]⟩
  unfold numInfix at hni
  rcases hf : l.filter (fun e => e.type = "INFIX") with _ | ⟨a, rest⟩
  · rw [hf] at hxm
    simp at hxm
  · rcases rest with _ | ⟨b, rest2⟩
    · rw [hf] at hxm hym
      simp at hxm hym
      rw [hxm, hym]
    · rw [hf] at hni
      simp at hni

theorem samePrio_of_range_eq (s : List Node)
    (h : (getPriorityRange s).2 = (getPriorityRange s).1) : samePrio s := by
  intro x hx y hy htx hty
  have hxq : x.priority ∈ prios s := (mem_prios_iff s _).mpr ⟨x, hx, htx, rfl⟩
  have hyq : y.priority ∈ prios s := (mem_prios_iff s _).mpr ⟨y, hy, hty, rfl⟩
  have hbx := range_bound s _ hxq
  have hby := range_bound s _ hyq
  omega

end QP
namespace QP


theorem key_stackAlt : ∀ (s s2 : List Node), s.map nodeKey = s2.map nodeKey →
    stackAlt s = stackAlt s2 := by
  intro s
  induction s using stackAlt.induct with
  | case1 =>
    intro s2 h
    rcases s2 with _ | ⟨a, b⟩
    · rfl
    · simp at h
  | case2 x =>
    intro s2 h
    rcases s2 with _ | ⟨a, _ | ⟨b, c⟩⟩
    · simp at h
    · simp only [List.map_cons, List.map_nil, List.cons.injEq] at h
      have ht : x.type = a.type := congrArg Prod.fst h.1
      simp [stackAlt, ht]
    · simp at h
  | case3 x o rest ih =>
    intro s2 h
    rcases s2 with _ | ⟨a, _ | ⟨b, c⟩⟩
    · simp at h
    · simp at h
    · simp only [List.map_cons, List.cons.injEq] at h
      have htx : x.type = a.type := congrArg Prod.fst h.1
      have hto : o.type = b.type := congrArg Prod.fst h.2.1
      show stackAlt (x :: o :: rest) = stackAlt (a :: b :: c)
      simp only [stackAlt, htx, hto, ih c h.2.2]

theorem key_prios : ∀ (s s2 : List Node), s.map nodeKey = s2.map nodeKey →
    prios s = prios s2 := by
  intro s
  induction s with
  | nil =>
    intro s2 h
    rcases s2 with _ | ⟨a, b⟩
    · rfl
    · simp at h
  | cons x rest ih =>
    intro s2 h
    rcases s2 with _ | ⟨a, b⟩
    · simp at h
    · simp only [List.map_cons, List.cons.injEq] at h
      have ht : x.type = a.type := congrArg Prod.fst h.1
      have hp : x.priority = a.priority := congrArg Prod.snd h.1
      simp only [prios, List.filter_cons]
      by_cases hi : x.type = "INFIX"
      · rw [if_pos (by simp [hi]), if_pos (by simp [← ht, hi])]
        simp only [List.map_cons]
        rw [hp]
        have := ih b h.2
        simp only [prios] at this
        rw [this]
      · rw [if_neg (by simp [hi]), if_neg (by simp [← ht, hi])]
        have := ih b h.2
        simp only [prios] at this
        rw [this]

theorem key_numInfix (s s2 : List Node) (h : s.map nodeKey = s2.map nodeKey) :
    numInfix s = numInfix s2 := by
  rw [← prios_length, ← prios_length, key_prios s s2 h]

theorem stackAlt_altCheck : ∀ (s : List Node), stackAlt s = true →
    altCheckB s = true := by
  intro s
  induction s using stackAlt.induct with
  | case1 => intro h; simp [stackAlt] at h
  | case2 x =>
    intro h
    simp only [stackAlt] at h
    simp [altCheckB, altCheckGo, List.elem_iff.mp h]
  | case3 x o rest ih =>
    intro h
    simp only [stackAlt, Bool.and_eq_true, decide_eq_true_eq] at h
    obtain ⟨⟨h1, h2⟩, h3⟩ := h
    have := ih h3
    simp only [altCheckB] at this
    simp [altCheckB, altCheckGo, List.elem_iff.mp h1, h2, this]

theorem infix_nodeWF (o : Node) (h : o.type = "INFIX") : nodeWF o = true := by
  cases o with
  | tk t => rfl
  | mk fn args => simp [Node.type] at h

theorem stackWF_parts : ∀ (s : List Node), stackWF s = true →
    stackAlt s = true ∧ ∀ x ∈ s, nodeWF x = true := by
  intro s
  induction s using stackAlt.induct with
  | case1 => intro h; simp [stackWF] at h
  | case2 x =>
    intro h
    simp only [stackWF, Bool.and_eq_true] at h
    refine ⟨by simp only [stackAlt]; exact h.1, ?_⟩
    intro y hy
    simp at hy
    rw [hy]
    exact h.2
  | case3 x o rest ih =>
    intro h
    simp only [stackWF, Bool.and_eq_true, decide_eq_true_eq] at h
    obtain ⟨⟨⟨h1, h2⟩, h3⟩, h4⟩ := h
    obtain ⟨ha, hn⟩ := ih h4
    refine ⟨by
      simp only [stackAlt, Bool.and_eq_true, decide_eq_true_eq]
      exact ⟨⟨h1, h3⟩, ha⟩, ?_⟩
    intro y hy
    simp only [List.mem_cons] at hy
    rcases hy with hy | hy | hy
    · rw [hy]; exact h2
    · rw [hy]; exact infix_nodeWF o h3
    · exact hn y hy

theorem marks_some (s : List Node) (p : Int) (hA : stackAlt s = true) :
    splitOpMarks s p = some (s.enum.map (fun e => (e.2, isTopF s p e.1))) := by
  have hodd := stackAlt_len_odd s hA
  have hpar := stackAlt_parity s hA
  have hlast : isMaxAt s p (s.length - 1) = false := by
    apply isMaxAt_operand
    intro hj
    exact (hpar (s.length - 1) hj).1 (by omega)
  unfold splitOpMarks
  rw [hlast]
  simp

theorem stackAlt_len3 (s : List Node) (hA : stackAlt s = true)
    (hni : 1 ≤ numInfix s) : 3 ≤ s.length := by
  rcases s with _ | ⟨a, _ | ⟨b, rest⟩⟩
  · simp [stackAlt] at hA
  · simp only [stackAlt] at hA
    have hne := operand_ne_infixOp _ hA
    unfold numInfix at hni
    rw [List.filter_cons, if_neg (by simp [hne])] at hni
    simp at hni
  · rcases rest with _ | ⟨c, rest2⟩
    · simp [stackAlt] at hA
    · simp

end QP
namespace QP

theorem nest_step (s : List Node) (mx mn : Int)
    (hmx : (getPriorityRange s).2 = mx) (hmn : (getPriorityRange s).1 = mn)
    (hA : stackAlt s = true) (hni : 1 ≤ numInfix s) (hnem : mx ≠ mn) :
    ∃ chunks, splitOp s mx = some chunks ∧ 1 < chunks.length ∧
      stackAlt (spliceChunks chunks) = true ∧
      1 ≤ numInfix (spliceChunks chunks) ∧
      distinctPrioCount (spliceChunks chunks) < distinctPrioCount s := by
  have hlen3 := stackAlt_len3 s hA hni
  obtain ⟨pairs, hpairs⟩ : ∃ ps, s.enum.map (fun e => (e.2, isTopF s mx e.1)) = ps :=
    ⟨_, rfl⟩
  have hmarks : splitOpMarks s mx = some pairs := by
    rw [← hpairs]
    exact marks_some s mx hA
  have hplen : pairs.length = s.length := by rw [← hpairs]; simp
  have hmem_iff : ∀ nd b, ((nd, b) ∈ pairs
      ↔ ∃ k, ∃ hk : k < s.length, s[k] = nd ∧ isTopF s mx k = b) := by
    intro nd b
    rw [← hpairs]
    exact pairs_mem_iff s mx nd b
  have hfca : FCA false pairs := by
    rw [← hpairs, ← pairsFrom_zero]
    have hb := fca_bridge s mx hA s.length s 0 rfl (by omega) (by omega)
      (by intro h; rw [h] at hlen3; simp at hlen3)
      (by intro j hj; rw [Nat.zero_add])
    have hfl : (decide (1 ≤ 0) && isMaxAt s mx (0 - 1)) = false := by simp
    rw [hfl] at hb
    exact hb
  have hmxm : mx ∈ prios s := by rw [← hmx]; exact range_mem_max s hni
  have hmnm : mn ∈ prios s := by rw [← hmn]; exact range_mem_min s hni
  obtain ⟨xmx, hxmxm, hxmxt, hxmxp⟩ := (mem_prios_iff s mx).mp hmxm
  obtain ⟨xmn, hxmnm, hxmnt, hxmnp⟩ := (mem_prios_iff s mn).mp hmnm
  have hxmx_pair : (xmx, true) ∈ pairs := by
    obtain ⟨k, hk, hkx⟩ := List.mem_iff_getElem.mp hxmxm
    refine (hmem_iff xmx true).mpr ⟨k, hk, hkx, ?_⟩
    rw [infix_flag s mx hA k hk (by rw [hkx]; exact hxmxt), hkx, hxmxp]
    simp
  have hxmn_pair : (xmn, false) ∈ pairs := by
    obtain ⟨k, hk, hkx⟩ := List.mem_iff_getElem.mp hxmnm
    refine (hmem_iff xmn false).mpr ⟨k, hk, hkx, ?_⟩
    rw [infix_flag s mx hA k hk (by rw [hkx]; exact hxmnt), hkx, hxmnp]
    exact decide_eq_false (fun h => hnem h.symm)
  cases hfca with
  | last x hx =>
    rw [← hplen] at hlen3
    simp at hlen3
  | step x o f2 fo rest2 hx ho hrest =>
    have hsc : splitChunks ((x, false || fo) :: (o, fo) :: rest2)
        = splitGo [x] (false || fo) ((o, fo) :: rest2) := by
      simp [splitChunks]
    obtain ⟨chunks, hch⟩ : ∃ c, splitGo [x] (false || fo) ((o, fo) :: rest2) = c :=
      ⟨_, rfl⟩
    have hretag : retag chunks = (x, false || fo) :: (o, fo) :: rest2 := by
      rw [← hch, ← hsc]
      exact splitChunks_retag _ _ _ _ rfl
    have hAsplice : stackAlt (spliceChunks chunks) = true := by
      rw [← hch]
      exact ((splitGo_wf ((o, fo) :: rest2).length ((o, fo) :: rest2) rfl).2
        o fo rest2 rfl ho hrest [x] (false || fo) true
        (fun _ => by simp [stackAlt]; exact List.elem_iff.mp hx)
        (fun h => by simp at h) (fun h => by rw [h]; simp) (fun _ => rfl)).1 rfl
    have hclen : 1 < chunks.length := by
      rcases hc : chunks with _ | ⟨c, _ | ⟨c2, cr⟩⟩
      · rw [hc] at hretag
        simp [retag] at hretag
      · rw [hc] at hretag
        have h1 : (xmx, true) ∈ retag [c] := by rw [hretag]; exact hxmx_pair
        have h2 : (xmn, false) ∈ retag [c] := by rw [hretag]; exact hxmn_pair
        obtain ⟨c1, hc1, _, hcb1⟩ := (retag_mem [c] xmx true).mp h1
        obtain ⟨c2x, hc2x, _, hcb2⟩ := (retag_mem [c] xmn false).mp h2
        simp at hc1 hc2x
        rw [hc1] at hcb1
        rw [hc2x] at hcb2
        rw [hcb2] at hcb1
        simp at hcb1
      · simp [hc]
    have hsub : ∀ q ∈ prios (spliceChunks chunks), q ∈ prios s ∧ q ≠ mx := by
      intro q hq
      rw [splice_prios, List.mem_flatten] at hq
      obtain ⟨l, hl, hql⟩ := hq
      rw [List.mem_map] at hl
      obtain ⟨c, hcm, hcl⟩ := hl
      rcases hcb : c.2 with hb2 | hb2
      · rw [← hcl, hcb] at hql
        simp only [if_false, Bool.false_eq_true] at hql
        obtain ⟨z, hzm, hzt, hzp⟩ := (mem_prios_iff c.1 q).mp hql
        have hzpair : (z, false) ∈ retag chunks :=
          (retag_mem chunks z false).mpr ⟨c, hcm, hzm, hcb⟩
        rw [hretag] at hzpair
        obtain ⟨k, hk, hkz, hkf⟩ := (hmem_iff z false).mp hzpair
        have hflagz := infix_flag s mx hA k hk (by rw [hkz]; exact hzt)
        rw [hflagz, hkz] at hkf
        have hzne : z.priority ≠ mx := by simpa using hkf
        refine ⟨(mem_prios_iff s q).mpr ⟨z, ?_, hzt, hzp⟩, by rw [← hzp]; exact hzne⟩
        rw [← hkz]
        exact List.getElem_mem hk
      · rw [← hcl, hcb] at hql
        simp at hql
    have hmn_in : mn ∈ prios (spliceChunks chunks) := by
      have h1 : (xmn, false) ∈ retag chunks := by rw [hretag]; exact hxmn_pair
      obtain ⟨c, hcm, hm, hc2⟩ := (retag_mem chunks xmn false).mp h1
      rw [splice_prios, List.mem_flatten]
      refine ⟨if c.2 then [] else prios c.1, List.mem_map_of_mem _ hcm, ?_⟩
      rw [hc2]
      simp only [if_false, Bool.false_eq_true]
      exact (mem_prios_iff c.1 mn).mpr ⟨xmn, hm, hxmnt, hxmnp⟩
    have hdec : distinctPrioCount (spliceChunks chunks) < distinctPrioCount s := by
      unfold distinctPrioCount
      rw [← List.card_toFinset, ← List.card_toFinset]
      have hsubF : (prios (spliceChunks chunks)).toFinset
          ⊆ ((prios s).toFinset).erase mx := by
        intro q hq
        rw [List.mem_toFinset] at hq
        obtain ⟨h1, h2⟩ := hsub q hq
        rw [Finset.mem_erase, List.mem_toFinset]
        exact ⟨h2, h1⟩
      have hmxF : mx ∈ (prios s).toFinset := List.mem_toFinset.mpr hmxm
      calc (prios (spliceChunks chunks)).toFinset.card
          ≤ (((prios s).toFinset).erase mx).card := Finset.card_le_card hsubF
        _ < (prios s).toFinset.card := Finset.card_erase_lt_of_mem hmxF
    have hni2 : 1 ≤ numInfix (spliceChunks chunks) := by
      rw [← prios_length]
      rcases hp2 : prios (spliceChunks chunks) with _ | ⟨a, b⟩
      · rw [hp2] at hmn_in
        simp at hmn_in
      · simp
    refine ⟨chunks, ?_, hclen, hAsplice, hni2, hdec⟩
    unfold splitOp
    rw [hmarks]
    dsimp only
    rw [hsc, hch]

end QP
namespace QP

theorem nestLoop_term : ∀ (c : Nat) (s : List Node), stackAlt s = true →
    1 ≤ numInfix s → distinctPrioCount s ≤ c → ∀ fuel, c < fuel →
    ∃ s2, nestLoop fuel s = some s2 ∧ samePrio s2 := by
  intro c
  induction c with
  | zero =>
    intro s hA hni hd fuel hf
    have := distinct_pos s hni
    omega
  | succ c ih =>
    intro s hA hni hd fuel hf
    cases fuel with
    | zero => omega
    | succ f =>
      by_cases heq : (getPriorityRange s).2 = (getPriorityRange s).1
      · refine ⟨s, ?_, samePrio_of_range_eq s heq⟩
        unfold nestLoop
        rw [if_pos heq]
      · obtain ⟨chunks, hsp, hclen, hAs, hni2, hdec⟩ :=
          nest_step s _ _ rfl rfl hA hni heq
        obtain ⟨s2, hs2, hsame⟩ :=
          ih (spliceChunks chunks) hAs hni2 (by omega) f (by omega)
        refine ⟨s2, ?_, hsame⟩
        unfold nestLoop
        rw [if_neg heq, hsp]
        dsimp only
        rw [if_pos hclen]
        exact hs2

end QP
namespace QP

theorem list_sizeOf_pos (l : List Node) : 1 ≤ sizeOf l := by
  cases l with
  | nil => simp
  | cons a as => simp; omega

theorem args_sizeOf_pos (l : List (List Node)) : 1 ≤ sizeOf l := by
  cases l with
  | nil => simp
  | cons a as => simp; omega

theorem node_sizeOf_pos (x : Node) : 1 ≤ sizeOf x := by
  cases x with
  | tk t => simp
  | mk fn args => simp; omega

theorem chars_sizeOf_pos (l : List Char) : 1 ≤ sizeOf l := by
  cases l with
  | nil => simp
  | cons a as => simp; omega

theorem nest_all : ∀ (n : Nat),
    (∀ x : Node, sizeOf x ≤ n → nodeWF x = true → ∀ fuel, sizeOf x + 3 ≤ fuel →
      ∃ x2, nestNode fuel x = some x2 ∧ nodeKey x2 = nodeKey x)
    ∧ (∀ a : List (List Node), sizeOf a ≤ n → argsWF a = true →
        ∀ fuel, sizeOf a + 4 ≤ fuel → ∃ a2, nestArgs fuel a = some a2)
    ∧ (∀ s : List Node, sizeOf s ≤ n → (∀ x ∈ s, nodeWF x = true) →
        ∀ fuel, sizeOf s + 4 ≤ fuel →
        ∃ s2, nestElems fuel s = some s2 ∧ s2.map nodeKey = s.map nodeKey)
    ∧ (∀ s : List Node, sizeOf s ≤ n → stackWF s = true →
        ∀ fuel, sizeOf s + 5 ≤ fuel →
        ∃ s2, nestStackFull fuel s = some s2 ∧ samePrio s2) := by
  intro n
  induction n using Nat.strong_induction_on with
  | _ n ih =>
    have hPN : ∀ x : Node, sizeOf x ≤ n → nodeWF x = true →
        ∀ fuel, sizeOf x + 3 ≤ fuel →
        ∃ x2, nestNode fuel x = some x2 ∧ nodeKey x2 = nodeKey x := by
      intro x hsz hwf fuel hfu
      have hxp := node_sizeOf_pos x
      cases fuel with
      | zero => omega
      | succ f =>
        cases x with
        | tk t => exact ⟨.tk t, rfl, rfl⟩
        | mk fn args =>
          have hlt : sizeOf args < n := by
            simp at hsz
            have := args_sizeOf_pos args
            omega
          have hfa : sizeOf args + 4 ≤ f := by
            simp at hfu
            have := chars_sizeOf_pos fn
            omega
          obtain ⟨args2, ha2⟩ :=
            (ih (sizeOf args) hlt).2.1 args (le_refl _) (by
              simp only [nodeWF] at hwf
              exact hwf) f hfa
          refine ⟨.mk fn args2, ?_, rfl⟩
          simp only [nestNode, ha2]
    have hPA : ∀ a : List (List Node), sizeOf a ≤ n → argsWF a = true →
        ∀ fuel, sizeOf a + 4 ≤ fuel → ∃ a2, nestArgs fuel a = some a2 := by
      intro a hsz hwf fuel hfu
      cases fuel with
      | zero =>
        have := args_sizeOf_pos a
        omega
      | succ f =>
        cases a with
        | nil => exact ⟨[], rfl⟩
        | cons s rest =>
          simp only [argsWF, Bool.and_eq_true] at hwf
          have hszs : sizeOf s < n := by
            simp at hsz
            have := args_sizeOf_pos rest
            omega
          have hszr : sizeOf rest < n := by
            simp at hsz
            have := list_sizeOf_pos s
            omega
          have hfs : sizeOf s + 5 ≤ f := by
            simp at hfu
            have := args_sizeOf_pos rest
            omega
          have hfr : sizeOf rest + 4 ≤ f := by
            simp at hfu
            have := list_sizeOf_pos s
            omega
          obtain ⟨s2, hs2, _⟩ :=
            (ih (sizeOf s) hszs).2.2.2 s (le_refl _) hwf.1 f hfs
          obtain ⟨rest2, hr2⟩ :=
            (ih (sizeOf rest) hszr).2.1 rest (le_refl _) hwf.2 f hfr
          refine ⟨s2 :: rest2, ?_⟩
          simp only [nestArgs, hs2, hr2]
    have hPE : ∀ s : List Node, sizeOf s ≤ n → (∀ x ∈ s, nodeWF x = true) →
        ∀ fuel, sizeOf s + 4 ≤ fuel →
        ∃ s2, nestElems fuel s = some s2 ∧ s2.map nodeKey = s.map nodeKey := by
      intro s hsz hnodes fuel hfu
      cases fuel with
      | zero =>
        have := list_sizeOf_pos s
        omega
      | succ f =>
        cases s with
        | nil => exact ⟨[], rfl, rfl⟩
        | cons x rest =>
          have hszx : sizeOf x < n := by
            simp at hsz
            have := list_sizeOf_pos rest
            omega
          have hszr : sizeOf rest < n := by
            simp at hsz
            have := node_sizeOf_pos x
            omega
          have hfx : sizeOf x + 3 ≤ f := by
            simp at hfu
            have := list_sizeOf_pos rest
            omega
          have hfr : sizeOf rest + 4 ≤ f := by
            simp at hfu
            have := node_sizeOf_pos x
            omega
          obtain ⟨x2, hx2, hkx⟩ :=
            (ih (sizeOf x) hszx).1 x (le_refl _) (hnodes x (by simp)) f hfx
          obtain ⟨rest2, hr2, hkr⟩ :=
            (ih (sizeOf rest) hszr).2.2.1 rest (le_refl _)
              (fun y hy => hnodes y (by simp [hy])) f hfr
          refine ⟨x2 :: rest2, ?_, ?_⟩
          · simp only [nestElems, hx2, hr2]
          · simp only [List.map_cons, hkx, hkr]
    have hPS : ∀ s : List Node, sizeOf s ≤ n → stackWF s = true →
        ∀ fuel, sizeOf s + 5 ≤ fuel →
        ∃ s2, nestStackFull fuel s = some s2 ∧ samePrio s2 := by
      intro s hsz hwf fuel hfu
      have hsp := list_sizeOf_pos s
      obtain ⟨hA, hnodes⟩ := stackWF_parts s hwf
      cases fuel with
      | zero => omega
      | succ f =>
        obtain ⟨s2, hs2, hkey⟩ := hPE s hsz hnodes f (by omega)
        have hAC : altCheckB s = true := stackAlt_altCheck s hA
        have hA2 : stackAlt s2 = true := by
          rw [key_stackAlt s2 s hkey]
          exact hA
        have hnum : numInfix s2 = numInfix s := key_numInfix s2 s hkey
        unfold nestStackFull
        rw [hAC]
        rw [if_neg (fun h => h rfl)]
        rw [hs2]
        dsimp only
        by_cases h2 : 2 ≤ numInfix s
        · rw [if_pos h2]
          obtain ⟨s3, h3, hsame⟩ :=
            nestLoop_term (distinctPrioCount s2) s2 hA2 (by omega) (le_refl _)
              f (by have := distinct_le_four s2; omega)
          exact ⟨s3, h3, hsame⟩
        · rw [if_neg h2]
          exact ⟨s2, rfl, samePrio_of_le_one s2 (by omega)⟩
    exact ⟨hPN, hPA, hPE, hPS⟩

end QP
namespace QP


/-- C3: for every well-formed Binary stack (odd length, strict
operand/operator alternation, recursively inside every Macroleaf), the
precedence-folding pass nest terminates: enough fuel makes nestStackFull
return a stack, and on that stack all remaining INFIX operators carry
one same priority.  Moreover every iteration of the nest while loop
strictly reduces the number of distinct priority levels: whenever the
loop runs (the priority range is non-degenerate), the split at the
maximal priority succeeds with more than one chunk, and the spliced
stack is again alternating with strictly fewer distinct priorities. -/
theorem c3_nest_terminates_flat :
    (∀ s : List Node, stackWF s = true →
      ∃ fuel s2, nestStackFull fuel s = some s2 ∧ samePrio s2)
    ∧ (∀ s : List Node, stackAlt s = true → 1 ≤ numInfix s →
      (getPriorityRange s).2 ≠ (getPriorityRange s).1 →
      ∃ chunks, splitOp s (getPriorityRange s).2 = some chunks ∧
        1 < chunks.length ∧ stackAlt (spliceChunks chunks) = true ∧
        distinctPrioCount (spliceChunks chunks) < distinctPrioCount s) := by
  constructor
  · intro s hwf
    obtain ⟨s2, h1, h2⟩ := (nest_all (sizeOf s)).2.2.2 s (le_refl _) hwf
      (sizeOf s + 5) (le_refl _)
    exact ⟨sizeOf s + 5, s2, h1, h2⟩
  · intro s hA hni hne
    obtain ⟨chunks, h1, h2, h3, _, h5⟩ := nest_step s _ _ rfl rfl hA hni hne
    exact ⟨chunks, h1, h2, h3, h5⟩

/-- C3 witness: the stack of 1+2*3 satisfies every hypothesis, nest
terminates on it with a flat-priority result, and its one folding
iteration strictly shrinks the distinct-priority count. -/
theorem c3_nest_terminates_flat_witness :
    stackWF onePlusTwoTimesThree = true
    ∧ stackAlt onePlusTwoTimesThree = true
    ∧ 1 ≤ numInfix onePlusTwoTimesThree
    ∧ (getPriorityRange onePlusTwoTimesThree).2
        ≠ (getPriorityRange onePlusTwoTimesThree).1
    ∧ (∃ fuel s2, nestStackFull fuel onePlusTwoTimesThree = some s2 ∧ samePrio s2)
    ∧ (∃ chunks,
        splitOp onePlusTwoTimesThree (getPriorityRange onePlusTwoTimesThree).2
          = some chunks ∧ 1 < chunks.length
        ∧ stackAlt (spliceChunks chunks) = true
        ∧ distinctPrioCount (spliceChunks chunks)
            < distinctPrioCount onePlusTwoTimesThree) :=
  ⟨by decide, by decide, by decide, by decide,
   c3_nest_terminates_flat.1 onePlusTwoTimesThree (by decide),
   c3_nest_terminates_flat.2 onePlusTwoTimesThree (by decide) (by decide) (by decide)⟩

end QP
